import Mathlib

/-!
# A verification model of the HarmonyOS-App-Testing knowledge graph core

This file gives a shallow embedding, in Lean 4, of the core data model and
operations of the knowledge-graph repository (`kg_core/schema.py`,
`kg_core/graph_store.py`, `kg_core/vector_store.py`,
`kg_query/path_finder.py`, `kg_query/page_matcher.py`), together with
theorems settling the behavioural claims about those operations.

Modelling conventions:
* Python `dict`s (which preserve insertion order, and keep the position of a
  key when its value is overwritten) are modelled as association lists with an
  update operation that replaces in place or appends.
* Python `int` is modelled as `ℤ`; Python `float` arithmetic is idealised as
  exact arithmetic over `ℚ` (for statistics) or `ℝ` (for vector scores).
  `int(x / y)` on integer operands is modelled as exact truncated division
  `Int.tdiv` (float64 is exact on the magnitudes exercised here).
* The `networkx` directed graph used by `MemoryGraphStore` is modelled by an
  insertion-ordered adjacency list; `nx.shortest_path` is modelled by the
  breadth-first search it performs for unweighted graphs, and
  `nx.all_simple_paths` by its depth-first enumeration with cutoff.
  Loops are written with explicit fuel; the wrappers pass a fuel value that
  is proved sufficient, so the models are total and executable.
* `datetime` metadata fields and md5-derived identifier generation are not
  observable through any operation studied here and are elided; identifier
  strings are carried as opaque data.
-/

namespace KG

/-- Replace the binding of key `k` in place, or append it, mirroring
assignment `d[k] = v` on a Python dict (existing keys keep their position,
new keys go last). -/
def assocUpd {β : Type} : List (String × β) → String → β → List (String × β)
  | [], k, v => [(k, v)]
  | (k', v') :: rest, k, v =>
    if k' = k then (k, v) :: rest else (k', v') :: assocUpd rest k v

/-- `d.get(k)` on a Python dict. -/
def assocGet {β : Type} (l : List (String × β)) (k : String) : Option β :=
  match l with
  | [] => none
  | (k', v') :: rest => if k' = k then some v' else assocGet rest k

theorem assocGet_upd_self {β : Type} (l : List (String × β)) (k : String) (v : β) :
    assocGet (assocUpd l k v) k = some v := by
  induction l with
  | nil => simp [assocUpd, assocGet]
  | cons hd tl ih =>
    obtain ⟨k', v'⟩ := hd
    by_cases h : k' = k
    · simp [assocUpd, h, assocGet]
    · simp [assocUpd, h, assocGet, ih]

theorem assocGet_upd_ne {β : Type} (l : List (String × β)) (k k₀ : String) (v : β)
    (h : k₀ ≠ k) : assocGet (assocUpd l k v) k₀ = assocGet l k₀ := by
  induction l with
  | nil => simp [assocUpd, assocGet, Ne.symm h]
  | cons hd tl ih =>
    obtain ⟨k', v'⟩ := hd
    by_cases hk : k' = k
    · subst hk
      simp [assocUpd, assocGet, Ne.symm h]
    · simp only [assocUpd, if_neg hk, assocGet]
      by_cases hk0 : k' = k₀ <;> simp [hk0, ih]

/-! ## Entity schema (`kg_core/schema.py`)

Only the fields that are observable through the operations under study are
kept; `datetime` fields (`created_at`, `discovered_at`, `last_verified`) and
the embedded screenshot/vector caches are dropped, as no modelled operation
reads them. -/

/-- `Widget` (schema.py).  Bounds and flags are kept as plain data. -/
structure Widget where
  widget_id : String
  widget_type : String
  text : String
  content_desc : String
  resource_id : String
  xpath : String
  is_clickable : Bool
  is_scrollable : Bool
  is_editable : Bool
  is_enabled : Bool
  semantic_role : String
  deriving DecidableEq

/-- `Page` (schema.py). -/
structure Page where
  page_id : String
  page_name : String
  app_id : String
  page_type : String
  state_hash : String
  title : String
  description : String
  intents : List String
  keywords : List String
  widgets : List Widget
  depth : ℤ
  visit_count : ℤ
  deriving DecidableEq

/-- `App` (schema.py). -/
structure App where
  app_id : String
  app_name : String
  version : String
  platform : String
  deriving DecidableEq

/-- `Transition` (schema.py).  Counts and the running latency average are
Python ints (`ℤ`). -/
structure Transition where
  transition_id : String
  source_page_id : String
  target_page_id : String
  trigger_widget_id : String
  trigger_widget_text : String
  action_type : String
  input_data : List (String × String)
  success_count : ℤ
  fail_count : ℤ
  avg_latency_ms : ℤ
  deriving DecidableEq

namespace Transition

/-- `Transition.success_rate` (schema.py:210-213):
`success_count / total if total > 0 else 0.0`, idealised over `ℚ`. -/
def success_rate (t : Transition) : ℚ :=
  if t.success_count + t.fail_count > 0 then
    (t.success_count : ℚ) / ((t.success_count + t.fail_count : ℤ) : ℚ)
  else 0

end Transition

/-! ## The `networkx` directed graph held by `MemoryGraphStore`

`nx.DiGraph` keeps, per node, an insertion-ordered successor dictionary.
Edge attributes are the dictionary produced by `Transition.to_dict()`; node
attributes are never read back by the code under study and are elided. -/

/-- The edge-attribute dictionary `Transition.to_dict()` (schema.py:215-226),
as stored on graph edges by `add_transition`. -/
structure EdgeData where
  transition_id : String
  source_page_id : String
  target_page_id : String
  trigger_widget_id : String
  trigger_widget_text : String
  action_type : String
  input_data : List (String × String)
  success_rate : ℚ
  success_count : ℤ
  deriving DecidableEq

/-- `Transition.to_dict()` applied to a transition, giving its edge data. -/
def Transition.to_dict (t : Transition) : EdgeData :=
  { transition_id := t.transition_id
    source_page_id := t.source_page_id
    target_page_id := t.target_page_id
    trigger_widget_id := t.trigger_widget_id
    trigger_widget_text := t.trigger_widget_text
    action_type := t.action_type
    input_data := t.input_data
    success_rate := t.success_rate
    success_count := t.success_count }

/-- An `nx.DiGraph`: insertion-ordered adjacency structure. -/
structure DiGraph where
  adj : List (String × List (String × EdgeData))
  deriving DecidableEq

namespace DiGraph

/-- The node list, in insertion order (`G.nodes`). -/
def nodes (g : DiGraph) : List String := g.adj.map Prod.fst

/-- Successors of `u` with edge data, in edge-insertion order (`G.succ[u]`);
empty when `u` is not a node. -/
def succPairs (g : DiGraph) (u : String) : List (String × EdgeData) :=
  (assocGet g.adj u).getD []

/-- Successor node ids of `u` (`G.successors(u)`). -/
def succList (g : DiGraph) (u : String) : List String :=
  (g.succPairs u).map Prod.fst

/-- `G.get_edge_data(u, v)`. -/
def edgeData (g : DiGraph) (u v : String) : Option EdgeData :=
  assocGet (g.succPairs u) v

/-- `G.add_node(u)` (attribute payload elided): a known node keeps its
position, a new node is appended with no successors. -/
def addNode (g : DiGraph) (u : String) : DiGraph :=
  if u ∈ g.nodes then g else ⟨g.adj ++ [(u, [])]⟩

/-- Update the successor dictionary of node `u` with edge `u → v`. -/
def setSucc : List (String × List (String × EdgeData)) → String → String →
    EdgeData → List (String × List (String × EdgeData))
  | [], _, _, _ => []
  | (k, l) :: rest, u, v, d =>
    if k = u then (k, assocUpd l v d) :: rest else (k, l) :: setSucc rest u v d

/-- `G.add_edge(u, v, **data)`: both endpoints are added as nodes if absent,
then the edge's attribute dictionary is set (an existing edge keeps its
position in the successor dictionary). -/
def addEdge (g : DiGraph) (u v : String) (d : EdgeData) : DiGraph :=
  ⟨setSucc ((g.addNode u).addNode v).adj u v d⟩

/-- The single-step edge relation of the graph. -/
def edgeRel (g : DiGraph) (u v : String) : Prop := v ∈ g.succList u

/-- `b` lies in the reachable closure of `a`: both are graph nodes and a
(possibly empty) chain of directed edges leads from `a` to `b`. -/
def Reach (g : DiGraph) (a b : String) : Prop :=
  a ∈ g.nodes ∧ b ∈ g.nodes ∧ Relation.ReflTransGen g.edgeRel a b

end DiGraph

/-! ## `MemoryGraphStore` (graph_store.py:56-231) -/

structure MemoryGraphStore where
  graph : DiGraph
  pages : List (String × Page)
  transitions : List (String × Transition)
  apps : List (String × App)
  deriving DecidableEq

namespace MemoryGraphStore

/-- The empty store built by `MemoryGraphStore.__init__`. -/
def init : MemoryGraphStore := ⟨⟨[]⟩, [], [], []⟩

/-- `add_app` (graph_store.py:69-72). -/
def add_app (s : MemoryGraphStore) (a : App) : MemoryGraphStore :=
  { s with apps := assocUpd s.apps a.app_id a }

/-- `add_page` (graph_store.py:74-81): records the page and adds a graph
node carrying its attribute dictionary. -/
def add_page (s : MemoryGraphStore) (p : Page) : MemoryGraphStore :=
  { s with
    pages := assocUpd s.pages p.page_id p
    graph := s.graph.addNode p.page_id }

/-- `add_transition` (graph_store.py:83-91): records the transition and adds
a directed edge carrying `transition.to_dict()`. -/
def add_transition (s : MemoryGraphStore) (t : Transition) : MemoryGraphStore :=
  { s with
    transitions := assocUpd s.transitions t.transition_id t
    graph := s.graph.addEdge t.source_page_id t.target_page_id t.to_dict }

/-- `get_page` (graph_store.py:93-95). -/
def get_page (s : MemoryGraphStore) (page_id : String) : Option Page :=
  assocGet s.pages page_id

/-- `get_transition` (graph_store.py:103-108): first stored transition with
the given source and target, in insertion order. -/
def get_transition (s : MemoryGraphStore) (source_id target_id : String) :
    Option Transition :=
  (s.transitions.map Prod.snd).find? fun t =>
    t.source_page_id = source_id ∧ t.target_page_id = target_id

/-- `get_outgoing_transitions` (graph_store.py:151-157). -/
def get_outgoing_transitions (s : MemoryGraphStore) (page_id : String) :
    List Transition :=
  (s.transitions.map Prod.snd).filter fun t => t.source_page_id = page_id

/-- `find_page_by_name` (graph_store.py:167-173): first page whose name
matches and whose app matches when an app filter is supplied. -/
def find_page_by_name (s : MemoryGraphStore) (page_name : String)
    (app_id : Option String) : Option Page :=
  (s.pages.map Prod.snd).find? fun p =>
    p.page_name = page_name ∧ (app_id = none ∨ app_id = some p.app_id)

/-- `update_transition_stats` (graph_store.py:196-206): a silent no-op for an
unknown id; otherwise increments one counter and folds the latency into the
truncated running average `int((avg * (total - 1) + latency) / total)`. -/
def update_transition_stats (s : MemoryGraphStore) (transition_id : String)
    (success : Bool) (latency_ms : ℤ) : MemoryGraphStore :=
  match assocGet s.transitions transition_id with
  | none => s
  | some t =>
    let t₁ :=
      if success then { t with success_count := t.success_count + 1 }
      else { t with fail_count := t.fail_count + 1 }
    let total := t₁.success_count + t₁.fail_count
    let t₂ := { t₁ with
      avg_latency_ms := Int.tdiv (t₁.avg_latency_ms * (total - 1) + latency_ms) total }
    { s with transitions := assocUpd s.transitions transition_id t₂ }

end MemoryGraphStore

/-! ## Breadth-first shortest path (`nx.shortest_path`, graph_store.py:110-127)

`nx.shortest_path` on an unweighted directed graph performs a breadth-first
search; it raises `NodeNotFound` when either endpoint is missing and
`NetworkXNoPath` when the target is unreachable — `find_shortest_path`
catches both and returns `None`.  The queue holds reversed paths (head =
frontier node); the loop is written on explicit fuel and the wrapper passes
a fuel value proved sufficient below. -/

namespace DiGraph

/-- Heads of the queued reversed paths: the BFS frontier. -/
def headsOf (q : List (List String)) : List String := q.filterMap List.head?

/-- Fuel bound for the BFS loop: every iteration either consumes a queue
entry or visits an unvisited node (enqueuing its out-degree). -/
def potential (g : DiGraph) (q : List (List String)) (visited : List String) : ℕ :=
  q.length + (((g.nodes.filter fun u => u ∉ visited).map
    fun u => 1 + (g.succList u).length).sum)

/-- The BFS loop: pop a reversed path, stop on the target, skip visited
heads, otherwise visit and enqueue all successors. -/
def spLoop (g : DiGraph) (t : String) :
    ℕ → List (List String) → List String → Option (List String)
  | 0, _, _ => none
  | _ + 1, [], _ => none
  | n + 1, [] :: rest, visited => spLoop g t n rest visited
  | n + 1, (u :: p) :: rest, visited =>
    if u = t then some (u :: p).reverse
    else if u ∈ visited then spLoop g t n rest visited
    else if u ∈ g.nodes then
      spLoop g t n (rest ++ (g.succList u).map fun v => v :: u :: p) (u :: visited)
    else spLoop g t n rest visited

/-- Well-formedness of the graphs that `MemoryGraphStore` actually builds:
every edge target is a node (`add_edge` inserts both endpoints). -/
def WF (g : DiGraph) : Prop := ∀ u v, g.edgeRel u v → v ∈ g.nodes

/-- A queue entry: a nonempty reversed path that starts (at its last
element) at `a` and follows graph edges. -/
def RevPathFrom (g : DiGraph) (a : String) (p : List String) : Prop :=
  p.getLast? = some a ∧ List.Chain' (fun x y => g.edgeRel y x) p

end DiGraph

/-- `PathResult` (graph_store.py:17-29). -/
structure PathResult where
  pages : List String
  transitions : List EdgeData
  total_steps : ℕ
  deriving DecidableEq

/-- `find_shortest_path` (graph_store.py:110-127): `None` for a missing
endpoint (`NodeNotFound`) or an unreachable target (`NetworkXNoPath`);
otherwise the BFS path with the edge dictionary of each hop (the attribute
dictionary of an existing edge is always truthy, hence `filterMap`). -/
def MemoryGraphStore.find_shortest_path (s : MemoryGraphStore)
    (start_id end_id : String) : Option PathResult :=
  let g := s.graph
  if start_id ∈ g.nodes ∧ end_id ∈ g.nodes then
    match DiGraph.spLoop g end_id (DiGraph.potential g [[start_id]] [])
        [[start_id]] [] with
    | none => none
    | some path =>
      some ⟨path, (path.zip path.tail).filterMap fun pr => g.edgeData pr.1 pr.2,
        path.length - 1⟩
  else none

namespace DiGraph

theorem assocGet_eq_none_of_not_mem {β : Type} (l : List (String × β))
    (u : String) (h : u ∉ l.map Prod.fst) : assocGet l u = none := by
  induction l with
  | nil => rfl
  | cons hd tl ih =>
    simp only [List.map_cons, List.mem_cons, not_or] at h
    simp [assocGet, Ne.symm h.1, ih h.2]

theorem succList_eq_nil_of_not_node (g : DiGraph) (u : String)
    (h : u ∉ g.nodes) : g.succList u = [] := by
  simp [succList, succPairs, assocGet_eq_none_of_not_mem g.adj u h]

theorem not_reach_of_no_succ (g : DiGraph) (u t : String) (hne : u ≠ t)
    (hsucc : g.succList u = []) : ¬ Relation.ReflTransGen g.edgeRel u t := by
  intro h
  rcases (Relation.ReflTransGen.cases_head h) with h' | ⟨v, hv, _⟩
  · exact hne h'
  · rw [edgeRel, hsucc] at hv
    exact List.not_mem_nil v hv

/-- A set containing a start point and closed under edges contains every
point reachable from it. -/
theorem mem_of_closed (g : DiGraph) (S : List String)
    (hcl : ∀ u ∈ S, ∀ v, g.edgeRel u v → v ∈ S) :
    ∀ a b, Relation.ReflTransGen g.edgeRel a b → a ∈ S → b ∈ S := by
  intro a b h
  induction h with
  | refl => exact id
  | tail _ hstep ih => exact fun ha => hcl _ (ih ha) _ hstep

theorem revPathFrom_reach (g : DiGraph) (a : String) :
    ∀ (p : List String) (u : String), p.head? = some u →
      g.RevPathFrom a p → Relation.ReflTransGen g.edgeRel a u := by
  intro p
  induction p with
  | nil => intro u h; simp at h
  | cons x l ih =>
    intro u hh hp
    obtain ⟨hlast, hchain⟩ := hp
    simp only [List.head?_cons, Option.some.injEq] at hh
    subst hh
    cases l with
    | nil =>
      simp only [List.getLast?_singleton, Option.some.injEq] at hlast
      subst hlast; exact Relation.ReflTransGen.refl
    | cons y l' =>
      have hchain' := List.chain'_cons.mp hchain
      have hlast' : (y :: l').getLast? = some a := by
        simpa [List.getLast?_cons_cons] using hlast
      exact Relation.ReflTransGen.tail
        (ih y (by simp) ⟨hlast', hchain'.2⟩) hchain'.1

theorem headsOf_nil : headsOf [] = [] := rfl

theorem headsOf_cons_nil (rest : List (List String)) :
    headsOf ([] :: rest) = headsOf rest := by simp [headsOf]

theorem headsOf_cons (u : String) (p : List String) (rest : List (List String)) :
    headsOf ((u :: p) :: rest) = u :: headsOf rest := by simp [headsOf]

theorem headsOf_append (a b : List (List String)) :
    headsOf (a ++ b) = headsOf a ++ headsOf b := by
  simp [headsOf, List.filterMap_append]

theorem headsOf_pushes (l : List String) (p : List String) :
    headsOf (l.map fun v => v :: p) = l := by
  induction l with
  | nil => rfl
  | cons a l' ih => simp [headsOf] at ih ⊢; exact ih

theorem sum_map_filter_mono (l : List String) (f : String → ℕ)
    (P Q : String → Prop) [DecidablePred P] [DecidablePred Q]
    (h : ∀ x, P x → Q x) :
    ((l.filter fun x => P x).map f).sum ≤ ((l.filter fun x => Q x).map f).sum := by
  induction l with
  | nil => simp
  | cons a l' ih =>
    by_cases hPa : P a
    · simp only [List.filter_cons, decide_eq_true_eq, if_pos hPa, if_pos (h a hPa),
        List.map_cons, List.sum_cons]
      omega
    · by_cases hQa : Q a
      · simp only [List.filter_cons, decide_eq_true_eq, if_neg hPa, if_pos hQa,
          List.map_cons, List.sum_cons]
        omega
      · simp only [List.filter_cons, decide_eq_true_eq, if_neg hPa, if_neg hQa]
        exact ih

theorem sum_map_filter_visit (l : List String) (f : String → ℕ) (u : String)
    (vis : List String) (hu : u ∈ l) (huv : u ∉ vis) :
    ((l.filter fun x => x ∉ u :: vis).map f).sum + f u ≤
      ((l.filter fun x => x ∉ vis).map f).sum := by
  induction l with
  | nil => simp at hu
  | cons a l' ih =>
    by_cases hau : a = u
    · subst hau
      have hmono : ((l'.filter fun x => x ∉ a :: vis).map f).sum ≤
          ((l'.filter fun x => x ∉ vis).map f).sum :=
        sum_map_filter_mono l' f (fun x => x ∉ a :: vis) (fun x => x ∉ vis)
          (fun x hx => fun hmem => hx (List.mem_cons_of_mem a hmem))
      simp only [List.filter_cons, decide_eq_true_eq,
        if_neg (by simp : ¬ a ∉ a :: vis), if_pos huv, List.map_cons, List.sum_cons]
      omega
    · have hu' : u ∈ l' := by
        rcases List.mem_cons.mp hu with h | h
        · exact absurd h.symm hau
        · exact h
      by_cases hav : a ∈ vis
      · simp only [List.filter_cons, decide_eq_true_eq,
          if_neg (by simp [hav] : ¬ a ∉ u :: vis),
          if_neg (by simp [hav] : ¬ a ∉ vis)]
        exact ih hu'
      · simp only [List.filter_cons, decide_eq_true_eq,
          if_pos (by simp [hav, hau] : a ∉ u :: vis),
          if_pos hav, List.map_cons, List.sum_cons]
        have := ih hu'
        omega

theorem potential_cons (g : DiGraph) (p : List String)
    (rest : List (List String)) (vis : List String) :
    potential g (p :: rest) vis = potential g rest vis + 1 := by
  simp [potential]; omega

theorem potential_visit (g : DiGraph) (u : String) (p : List String)
    (rest : List (List String)) (vis : List String)
    (hu : u ∈ g.nodes) (huv : u ∉ vis) :
    potential g (rest ++ (g.succList u).map fun v => v :: u :: p) (u :: vis) + 1 ≤
      potential g ((u :: p) :: rest) vis := by
  have hsplit : (((g.nodes.filter fun x => x ∉ u :: vis).map
        fun w => 1 + (g.succList w).length).sum) + (1 + (g.succList u).length) ≤
      ((g.nodes.filter fun x => x ∉ vis).map
        fun w => 1 + (g.succList w).length).sum :=
    sum_map_filter_visit g.nodes (fun w => 1 + (g.succList w).length) u vis hu huv
  simp only [potential, List.length_append, List.length_map, List.length_cons]
  omega

/-- When the BFS loop answers `none` (with sufficient fuel), no vertex of
the visited set or the frontier can reach the target. -/
theorem spLoop_none_not_reach (g : DiGraph) (t : String) (hwf : g.WF) :
    ∀ (n : ℕ) (q : List (List String)) (vis : List String),
      spLoop g t n q vis = none →
      potential g q vis ≤ n →
      t ∉ vis →
      (∀ u ∈ vis, ∀ v, g.edgeRel u v → v ∈ vis ∨ v ∈ headsOf q) →
      ∀ z, (z ∈ vis ∨ z ∈ headsOf q) →
        ¬ Relation.ReflTransGen g.edgeRel z t := by
  intro n
  induction n with
  | zero =>
    intro q vis _ hpot ht hcl z hz
    have hq : q = [] := by
      have h := hpot
      simp only [potential] at h
      exact List.eq_nil_of_length_eq_zero (by omega)
    subst hq
    rw [headsOf_nil] at hcl hz
    rcases hz with hz | hz
    · intro hreach
      exact ht (mem_of_closed g vis
        (fun u hu v hv => (hcl u hu v hv).resolve_right (List.not_mem_nil v))
        z t hreach hz)
    · exact absurd hz (List.not_mem_nil z)
  | succ n ih =>
    intro q vis hnone hpot ht hcl z hz
    rcases q with _ | ⟨_ | ⟨u, p⟩, rest⟩
    · rw [headsOf_nil] at hcl hz
      rcases hz with hz | hz
      · intro hreach
        exact ht (mem_of_closed g vis
          (fun u hu v hv => (hcl u hu v hv).resolve_right (List.not_mem_nil v))
          z t hreach hz)
      · exact absurd hz (List.not_mem_nil z)
    · -- empty queue entry: skip
      rw [spLoop] at hnone
      rw [potential_cons] at hpot
      rw [headsOf_cons_nil] at hcl hz
      exact ih rest vis hnone (by omega) ht hcl z hz
    · rw [spLoop] at hnone
      rw [headsOf_cons] at hcl hz
      by_cases hut : u = t
      · rw [if_pos hut] at hnone; exact absurd hnone (by simp)
      rw [if_neg hut] at hnone
      by_cases huv : u ∈ vis
      · rw [if_pos huv] at hnone
        rw [potential_cons] at hpot
        have hcl' : ∀ w ∈ vis, ∀ v, g.edgeRel w v → v ∈ vis ∨ v ∈ headsOf rest := by
          intro w hw v hv
          rcases hcl w hw v hv with h | h
          · exact Or.inl h
          · rcases List.mem_cons.mp h with h | h
            · exact Or.inl (h ▸ huv)
            · exact Or.inr h
        have ihrest := ih rest vis hnone (by omega) ht hcl'
        rcases hz with hz | hz
        · exact ihrest z (Or.inl hz)
        · rcases List.mem_cons.mp hz with hz | hz
          · exact hz ▸ ihrest u (Or.inl huv)
          · exact ihrest z (Or.inr hz)
      · rw [if_neg huv] at hnone
        by_cases hun : u ∈ g.nodes
        · rw [if_pos hun] at hnone
          have hpot' := potential_visit g u p rest vis hun huv
          have hcl' : ∀ w ∈ u :: vis, ∀ v, g.edgeRel w v →
              v ∈ u :: vis ∨ v ∈ headsOf (rest ++ (g.succList u).map fun v => v :: u :: p) := by
            intro w hw v hv
            rw [headsOf_append, headsOf_pushes]
            rcases List.mem_cons.mp hw with hw | hw
            · subst hw
              exact Or.inr (List.mem_append_right _ hv)
            · rcases hcl w hw v hv with h | h
              · exact Or.inl (List.mem_cons_of_mem u h)
              · rcases List.mem_cons.mp h with h | h
                · exact Or.inl (h ▸ List.mem_cons_self u vis)
                · exact Or.inr (List.mem_append_left _ h)
          have ihrec := ih _ (u :: vis) hnone (by omega)
            (by simp [ht, Ne.symm hut]) hcl'
          rcases hz with hz | hz
          · exact ihrec z (Or.inl (List.mem_cons_of_mem u hz))
          · rcases List.mem_cons.mp hz with hz | hz
            · exact hz ▸ ihrec u (Or.inl (List.mem_cons_self u vis))
            · refine ihrec z (Or.inr ?_)
              rw [headsOf_append]
              exact List.mem_append_left _ hz
        · rw [if_neg hun] at hnone
          rw [potential_cons] at hpot
          have hcl' : ∀ w ∈ vis, ∀ v, g.edgeRel w v → v ∈ vis ∨ v ∈ headsOf rest := by
            intro w hw v hv
            rcases hcl w hw v hv with h | h
            · exact Or.inl h
            · rcases List.mem_cons.mp h with h | h
              · exact absurd (h ▸ hwf w v hv) hun
              · exact Or.inr h
          have ihrest := ih rest vis hnone (by omega) ht hcl'
          rcases hz with hz | hz
          · exact ihrest z (Or.inl hz)
          · rcases List.mem_cons.mp hz with hz | hz
            · subst hz
              exact not_reach_of_no_succ g z t hut
                (succList_eq_nil_of_not_node g z hun)
            · exact ihrest z (Or.inr hz)

/-- When the BFS loop answers `some`, the start can reach the target. -/
theorem spLoop_some_reach (g : DiGraph) (t a : String) :
    ∀ (n : ℕ) (q : List (List String)) (vis : List String) (r : List String),
      spLoop g t n q vis = some r →
      (∀ p ∈ q, g.RevPathFrom a p) →
      Relation.ReflTransGen g.edgeRel a t := by
  intro n
  induction n with
  | zero => intro q vis r h _; exact absurd h (by simp [spLoop])
  | succ n ih =>
    intro q vis r hsome hq
    rcases q with _ | ⟨_ | ⟨u, p⟩, rest⟩
    · exact absurd hsome (by simp [spLoop])
    · rw [spLoop] at hsome
      exact ih rest vis r hsome fun p hp => hq p (List.mem_cons_of_mem _ hp)
    · rw [spLoop] at hsome
      by_cases hut : u = t
      · subst hut
        exact revPathFrom_reach g a (u :: p) u (by simp)
          (hq (u :: p) (List.mem_cons_self _ _))
      rw [if_neg hut] at hsome
      by_cases huv : u ∈ vis
      · rw [if_pos huv] at hsome
        exact ih rest vis r hsome fun p hp => hq p (List.mem_cons_of_mem _ hp)
      rw [if_neg huv] at hsome
      by_cases hun : u ∈ g.nodes
      · rw [if_pos hun] at hsome
        refine ih _ (u :: vis) r hsome ?_
        intro p' hp'
        rcases List.mem_append.mp hp' with hp' | hp'
        · exact hq p' (List.mem_cons_of_mem _ hp')
        · obtain ⟨v, hv, rfl⟩ := List.mem_map.mp hp'
          obtain ⟨hlast, hchain⟩ := hq (u :: p) (List.mem_cons_self _ _)
          refine ⟨?_, ?_⟩
          · simpa [List.getLast?_cons_cons] using hlast
          · exact List.chain'_cons.mpr ⟨hv, hchain⟩
      · rw [if_neg hun] at hsome
        exact ih rest vis r hsome fun p hp => hq p (List.mem_cons_of_mem _ hp)

theorem assocGet_append {β : Type} (l₁ l₂ : List (String × β)) (k : String) :
    assocGet (l₁ ++ l₂) k =
      match assocGet l₁ k with
      | some v => some v
      | none => assocGet l₂ k := by
  induction l₁ with
  | nil => simp [assocGet]
  | cons hd tl ih =>
    by_cases h : hd.1 = k
    · simp [assocGet, h]
    · simpa [assocGet, h] using ih

theorem succPairs_addNode (g : DiGraph) (w x : String) :
    (g.addNode w).succPairs x = g.succPairs x := by
  rw [addNode]
  by_cases hw : w ∈ g.nodes
  · simp [hw]
  · simp only [if_neg hw, succPairs]
    rw [assocGet_append]
    cases hx : assocGet g.adj x with
    | some l => simp
    | none =>
      by_cases hwx : w = x
      · subst hwx
        simp [assocGet]
      · simp [assocGet, hwx]

theorem mem_nodes_addNode (g : DiGraph) (w x : String) :
    x ∈ (g.addNode w).nodes ↔ x ∈ g.nodes ∨ x = w := by
  rw [addNode]
  by_cases hw : w ∈ g.nodes
  · rw [if_pos hw]
    constructor
    · exact Or.inl
    · rintro (h | rfl) <;> [exact h; exact hw]
  · rw [if_neg hw]
    show x ∈ List.map Prod.fst (g.adj ++ [(w, [])]) ↔ _
    rw [List.map_append]
    simp [nodes]

theorem WF_addNode (g : DiGraph) (w : String) (hwf : g.WF) : (g.addNode w).WF := by
  intro u v hv
  rw [edgeRel, succList, succPairs_addNode] at hv
  exact (mem_nodes_addNode g w v).mpr (Or.inl (hwf u v hv))

theorem assocGet_setSucc (l : List (String × List (String × EdgeData)))
    (u v : String) (d : EdgeData) (x : String) :
    assocGet (setSucc l u v d) x =
      if x = u then (assocGet l x).map (fun s => assocUpd s v d)
      else assocGet l x := by
  induction l with
  | nil => simp [setSucc, assocGet]
  | cons hd tl ih =>
    obtain ⟨k, b⟩ := hd
    rw [setSucc]
    by_cases hku : k = u
    · rw [if_pos hku]
      subst hku
      by_cases hkx : k = x
      · subst hkx
        simp [assocGet]
      · rw [assocGet, if_neg hkx, assocGet, if_neg hkx, if_neg (Ne.symm hkx)]
    · rw [if_neg hku]
      by_cases hkx : k = x
      · subst hkx
        rw [assocGet, if_pos rfl, if_neg hku, assocGet, if_pos rfl]
      · rw [assocGet, if_neg hkx, assocGet, if_neg hkx, ih]

theorem fst_setSucc (l : List (String × List (String × EdgeData)))
    (u v : String) (d : EdgeData) :
    (setSucc l u v d).map Prod.fst = l.map Prod.fst := by
  induction l with
  | nil => rfl
  | cons hd tl ih =>
    obtain ⟨k, b⟩ := hd
    rw [setSucc]
    by_cases hku : k = u
    · rw [if_pos hku]
      simp
    · rw [if_neg hku]
      simp [ih]

theorem nodes_addEdge (g : DiGraph) (u v : String) (d : EdgeData) :
    (g.addEdge u v d).nodes = ((g.addNode u).addNode v).nodes := by
  rw [addEdge]
  show List.map Prod.fst (setSucc _ u v d) = _
  rw [fst_setSucc]
  rfl

theorem mem_fst_assocUpd {β : Type} (l : List (String × β)) (k : String) (v : β)
    (y : String) (hy : y ∈ (assocUpd l k v).map Prod.fst) :
    y = k ∨ y ∈ l.map Prod.fst := by
  induction l with
  | nil => simpa [assocUpd] using hy
  | cons hd tl ih =>
    by_cases h : hd.1 = k
    · rw [assocUpd, if_pos h] at hy
      rcases List.mem_cons.mp hy with hy | hy
      · exact Or.inl hy
      · exact Or.inr (List.mem_cons_of_mem _ hy)
    · rw [assocUpd, if_neg h] at hy
      rcases List.mem_cons.mp hy with hy | hy
      · exact Or.inr (hy ▸ List.mem_cons_self _ _)
      · rcases ih hy with h' | h'
        · exact Or.inl h'
        · exact Or.inr (List.mem_cons_of_mem _ h')

theorem WF_addEdge (g : DiGraph) (u v : String) (d : EdgeData) (hwf : g.WF) :
    (g.addEdge u v d).WF := by
  have hwf'' : ((g.addNode u).addNode v).WF := WF_addNode _ v (WF_addNode g u hwf)
  intro x y hy
  rw [edgeRel, succList, succPairs, addEdge] at hy
  rw [nodes_addEdge]
  rw [show (DiGraph.mk (setSucc ((g.addNode u).addNode v).adj u v d)).adj =
    setSucc ((g.addNode u).addNode v).adj u v d from rfl, assocGet_setSucc] at hy
  by_cases hxu : x = u
  · rw [if_pos hxu] at hy
    cases hGet : assocGet ((g.addNode u).addNode v).adj x with
    | none =>
      rw [hGet] at hy
      exact absurd hy (by simp)
    | some l =>
      rw [hGet] at hy
      rw [show (Option.map (fun s => assocUpd s v d) (some l)).getD [] =
        assocUpd l v d from rfl] at hy
      rcases mem_fst_assocUpd l v d y hy with rfl | hy'
      · exact (mem_nodes_addNode _ y y).mpr (Or.inr rfl)
      · refine hwf'' x y ?_
        rw [edgeRel, succList, succPairs, hGet]
        exact hy'
  · rw [if_neg hxu] at hy
    exact hwf'' x y hy

theorem WF_empty : DiGraph.WF ⟨[]⟩ := by
  intro u v hv
  rw [edgeRel, succList, succPairs] at hv
  simp [assocGet] at hv

end DiGraph

namespace MemoryGraphStore

theorem WF_init : init.graph.WF := DiGraph.WF_empty

theorem WF_add_page (s : MemoryGraphStore) (p : Page) (h : s.graph.WF) :
    (s.add_page p).graph.WF := DiGraph.WF_addNode _ _ h

theorem WF_add_transition (s : MemoryGraphStore) (t : Transition)
    (h : s.graph.WF) : (s.add_transition t).graph.WF := DiGraph.WF_addEdge _ _ _ _ h

theorem WF_add_app (s : MemoryGraphStore) (a : App) (h : s.graph.WF) :
    (s.add_app a).graph.WF := h

theorem WF_update_transition_stats (s : MemoryGraphStore) (tid : String)
    (b : Bool) (lat : ℤ) (h : s.graph.WF) :
    (s.update_transition_stats tid b lat).graph.WF := by
  rw [update_transition_stats]
  cases assocGet s.transitions tid <;> exact h

end MemoryGraphStore

/-- C2: `find_shortest_path(a, b)` is `None` exactly when `b` is not in the
reachable closure of `a` (in particular when either endpoint is absent),
and `find_shortest_path(a, a)` on a present page is the zero-length path
`[a]`.  The function is total (never raises). -/
theorem C2_find_shortest_path (s : MemoryGraphStore) (hwf : s.graph.WF)
    (a b : String) :
    (s.find_shortest_path a b = none ↔ ¬ s.graph.Reach a b) ∧
    (a ∈ s.graph.nodes → s.find_shortest_path a a = some ⟨[a], [], 0⟩) := by
  constructor
  · simp only [MemoryGraphStore.find_shortest_path]
    by_cases hg : a ∈ s.graph.nodes ∧ b ∈ s.graph.nodes
    · rw [if_pos hg]
      cases hloop : DiGraph.spLoop s.graph b
          (DiGraph.potential s.graph [[a]] []) [[a]] [] with
      | none =>
        constructor
        · intro _ hreach
          exact (DiGraph.spLoop_none_not_reach s.graph b hwf _ [[a]] [] hloop
            (le_refl _) (List.not_mem_nil b)
            (fun u hu => absurd hu (List.not_mem_nil u)) a
            (Or.inr (by rw [DiGraph.headsOf_cons]; exact List.mem_cons_self _ _)))
            hreach.2.2
        · intro _; rfl
      | some r =>
        constructor
        · intro h; exact absurd h (by simp)
        · intro hnr
          refine absurd ⟨hg.1, hg.2, ?_⟩ hnr
          refine DiGraph.spLoop_some_reach s.graph b a _ [[a]] [] r hloop ?_
          intro p hp
          rcases List.mem_cons.mp hp with rfl | hp
          · exact ⟨by simp, by simp⟩
          · exact absurd hp (List.not_mem_nil p)
    · rw [if_neg hg]
      exact ⟨fun _ hreach => hg ⟨hreach.1, hreach.2.1⟩, fun _ => rfl⟩
  · intro ha
    rw [MemoryGraphStore.find_shortest_path]
    simp only [if_pos (And.intro ha ha)]
    obtain ⟨m, hm⟩ : ∃ m, DiGraph.potential s.graph [[a]] [] = m + 1 :=
      ⟨DiGraph.potential s.graph [] [], by rw [DiGraph.potential_cons]⟩
    rw [hm, DiGraph.spLoop, if_pos rfl]
    rfl

/-- A minimal concrete page used by witnesses. -/
def samplePage (pid : String) : Page :=
  { page_id := pid, page_name := pid, app_id := "app", page_type := "other"
    state_hash := "", title := "", description := "", intents := []
    keywords := [], widgets := [], depth := 0, visit_count := 0 }

/-- A one-page store used by the C2 witness. -/
def storeC2 : MemoryGraphStore := MemoryGraphStore.init.add_page (samplePage "A")

/-- Witness for C2 at a concrete store: the self path of a present page. -/
theorem C2_find_shortest_path_witness :
    storeC2.find_shortest_path "A" "A" = some ⟨["A"], [], 0⟩ :=
  (C2_find_shortest_path storeC2
    (MemoryGraphStore.WF_add_page _ _ MemoryGraphStore.WF_init) "A" "A").2
    (by decide)

/-! ## `get_reachable_pages` (graph_store.py:175-194)

A hand-written BFS over `(page_id, depth)` pairs.  `graph.successors(page_id)`
raises for a non-node (only possible for the start node, whose membership is
never checked first); the bare `except` then returns `[start_id]`.  `depth`
and `max_depth` are Python ints (`ℤ`), and the skip condition
`depth > max_depth` fires immediately when `max_depth < 0`. -/

namespace MemoryGraphStore

/-- Fuel bound for the reachability BFS. -/
def reachPotential (g : DiGraph) (q : List (String × ℤ)) (visited : List String) : ℕ :=
  q.length + (((g.nodes.filter fun u => u ∉ visited).map
    fun u => 1 + (g.succList u).length).sum)

/-- The `while queue:` loop of `get_reachable_pages`.  The visited set is
kept as an insertion-ordered duplicate-free list (Python returns
`list(visited)` of a set, whose order is unspecified; all claims are stated
up to membership). -/
def reachLoop (g : DiGraph) (start : String) (md : ℤ) :
    ℕ → List (String × ℤ) → List String → List String
  | 0, _, visited => visited
  | _ + 1, [], visited => visited
  | n + 1, (pid, d) :: rest, visited =>
    if pid ∈ visited ∨ d > md then reachLoop g start md n rest visited
    else if pid ∈ g.nodes then
      reachLoop g start md n
        (rest ++ ((g.succList pid).filter fun w => w ∉ visited ++ [pid]).map
          fun w => (w, d + 1))
        (visited ++ [pid])
    else [start]

/-- `get_reachable_pages` (graph_store.py:175-194). -/
def get_reachable_pages (s : MemoryGraphStore) (start_id : String)
    (max_depth : ℤ) : List String :=
  reachLoop s.graph start_id max_depth
    (reachPotential s.graph [(start_id, 0)] []) [(start_id, 0)] []

theorem start_mem_reachLoop (g : DiGraph) (start : String) (md : ℤ) :
    ∀ (n : ℕ) (q : List (String × ℤ)) (visited : List String),
      start ∈ visited → start ∈ reachLoop g start md n q visited := by
  intro n
  induction n with
  | zero => intro q visited h; exact h
  | succ n ih =>
    intro q visited h
    rcases q with _ | ⟨⟨pid, d⟩, rest⟩
    · exact h
    · rw [reachLoop]
      by_cases hskip : pid ∈ visited ∨ d > md
      · rw [if_pos hskip]; exact ih rest visited h
      · rw [if_neg hskip]
        by_cases hn : pid ∈ g.nodes
        · rw [if_pos hn]
          exact ih _ _ (List.mem_append_left _ h)
        · rw [if_neg hn]
          exact List.mem_singleton.mpr rfl

end MemoryGraphStore

/-- C10 (amended): for a non-negative `max_depth`, `get_reachable_pages`
returns exactly `[start_id]` when the start is not a node (the bare
`except` path), and its result always contains a present start.  For
`max_depth < 0` the depth guard discards even the start and the function
returns `[]` (see the counterexample). -/
theorem C10_get_reachable_pages (s : MemoryGraphStore) (start : String)
    (md : ℤ) (hmd : 0 ≤ md) :
    (start ∉ s.graph.nodes → s.get_reachable_pages start md = [start]) ∧
    (start ∈ s.graph.nodes → start ∈ s.get_reachable_pages start md) := by
  have hguard : ¬ ((start ∈ ([] : List String)) ∨ (0 : ℤ) > md) := by
    rintro (h | h)
    · exact List.not_mem_nil start h
    · omega
  obtain ⟨m, hm⟩ : ∃ m, MemoryGraphStore.reachPotential s.graph [(start, 0)] [] = m + 1 := by
    refine ⟨MemoryGraphStore.reachPotential s.graph [] [] , ?_⟩
    simp [MemoryGraphStore.reachPotential]
    omega
  constructor
  · intro hstart
    rw [MemoryGraphStore.get_reachable_pages, hm, MemoryGraphStore.reachLoop,
      if_neg hguard, if_neg hstart]
  · intro hstart
    rw [MemoryGraphStore.get_reachable_pages, hm, MemoryGraphStore.reachLoop,
      if_neg hguard, if_pos hstart]
    exact MemoryGraphStore.start_mem_reachLoop s.graph start md m _ _
      (List.mem_append_right _ (List.mem_singleton.mpr rfl))

/-- One-page store used for the C10 counterexample and witness. -/
def storeC10 : MemoryGraphStore := MemoryGraphStore.init.add_page (samplePage "A")

/-- Counterexample to C10 as stated: with `max_depth = -1` (a legal Python
int) the function returns `[]`, not `[start_id]`, for the absent page "B",
and its result does not contain the present page "A". -/
theorem C10_get_reachable_pages_counterexample :
    storeC10.get_reachable_pages "B" (-1) = [] ∧
    storeC10.get_reachable_pages "A" (-1) = [] ∧
    ([] : List String) ≠ ["B"] ∧ "A" ∉ ([] : List String) := by
  refine ⟨by decide, by decide, by decide, by decide⟩

/-- Witness for the amended C10 at a concrete store and depth 0. -/
theorem C10_get_reachable_pages_witness :
    storeC10.get_reachable_pages "B" 0 = ["B"] ∧
    "A" ∈ storeC10.get_reachable_pages "A" 0 :=
  ⟨(C10_get_reachable_pages storeC10 "B" 0 (by decide)).1 (by decide),
   (C10_get_reachable_pages storeC10 "A" 0 (by decide)).2 (by decide)⟩

/-! ## `find_all_paths` (graph_store.py:129-149)

`nx.all_simple_paths(G, source, target, cutoff)` raises `NodeNotFound` for a
missing endpoint (swallowed by the bare `except`, giving `[]`), yields
nothing when `source == target` or `cutoff < 1`, and otherwise enumerates
simple paths of at most `cutoff` edges in depth-first order over the
successor dictionaries.  The repository takes the first five and never
sorts them. -/

namespace DiGraph

/-- Depth-first enumeration of the simple paths from `u` (with prefix
`path`, not containing `u`) to `t` using at most `fuel` further edges, in
`nx.all_simple_paths` order. -/
def dfsPaths (g : DiGraph) (t : String) :
    ℕ → List String → String → List (List String)
  | 0, _, _ => []
  | 1, path, u =>
    if t ∈ g.succList u ∧ t ∉ path ++ [u] then [path ++ [u, t]] else []
  | n + 2, path, u =>
    (g.succList u).flatMap fun v =>
      if v ∈ path ++ [u] then []
      else if v = t then [path ++ [u, t]]
      else dfsPaths g t (n + 1) (path ++ [u]) v

theorem nodup_snoc_of_not_mem (l : List String) (x : String)
    (hl : l.Nodup) (hx : x ∉ l) : (l ++ [x]).Nodup := by
  rw [List.nodup_append]
  refine ⟨hl, List.nodup_singleton x, ?_⟩
  intro a ha hb
  rw [List.mem_singleton] at hb
  exact hx (hb ▸ ha)

/-- Every enumerated path extends `path ++ [u]`, ends at `t`, is simple,
and uses at most `fuel` additional nodes. -/
theorem dfsPaths_spec (g : DiGraph) (t : String) :
    ∀ (n : ℕ) (path : List String) (u : String), (path ++ [u]).Nodup →
      ∀ p ∈ dfsPaths g t n path u,
        (∃ q, p = (path ++ [u]) ++ q ∧ q ≠ [] ∧ q.getLast? = some t) ∧
        p.Nodup ∧ p.length ≤ path.length + 1 + n := by
  intro n
  induction n using Nat.strong_induction_on with
  | _ n ih =>
    rcases n with _ | _ | m
    · intro path u _ p hp
      exact absurd hp (by rw [dfsPaths]; exact List.not_mem_nil p)
    · intro path u hnd p hp
      rw [dfsPaths] at hp
      by_cases hc : t ∈ g.succList u ∧ t ∉ path ++ [u]
      · rw [if_pos hc] at hp
        rcases List.mem_singleton.mp hp with rfl
        have hsplit : path ++ [u, t] = (path ++ [u]) ++ [t] := by
          simp [List.append_assoc]
        refine ⟨⟨[t], hsplit, by simp, by simp⟩, ?_, by simp⟩
        rw [hsplit]
        exact nodup_snoc_of_not_mem _ t hnd hc.2
      · rw [if_neg hc] at hp
        exact absurd hp (List.not_mem_nil p)
    · intro path u hnd p hp
      rw [dfsPaths] at hp
      rcases List.mem_flatMap.mp hp with ⟨v, hv, hpv⟩
      by_cases hvmem : v ∈ path ++ [u]
      · rw [if_pos hvmem] at hpv
        exact absurd hpv (List.not_mem_nil p)
      rw [if_neg hvmem] at hpv
      by_cases hvt : v = t
      · rw [if_pos hvt] at hpv
        rcases List.mem_singleton.mp hpv with rfl
        have hsplit : path ++ [u, t] = (path ++ [u]) ++ [t] := by
          simp [List.append_assoc]
        refine ⟨⟨[t], hsplit, by simp, by simp⟩, ?_, by simp; omega⟩
        rw [hsplit]
        exact nodup_snoc_of_not_mem _ t hnd (hvt ▸ hvmem)
      · rw [if_neg hvt] at hpv
        have hnd' : ((path ++ [u]) ++ [v]).Nodup :=
          nodup_snoc_of_not_mem _ v hnd hvmem
        obtain ⟨⟨q, hq, hqne, hqlast⟩, hpnd, hplen⟩ :=
          ih (m + 1) (by omega) (path ++ [u]) v hnd' p hpv
        refine ⟨⟨v :: q, ?_, by simp, ?_⟩, hpnd, ?_⟩
        · rw [hq]; simp
        · rcases q with _ | ⟨x, q'⟩
          · exact absurd rfl hqne
          · rw [List.getLast?_cons_cons]
            exact hqlast
        · simp at hplen ⊢; omega

end DiGraph

/-- `find_all_paths` (graph_store.py:129-149): first five simple paths in
DFS discovery order, each rendered as a `PathResult` with its hop edge
dictionaries. -/
def MemoryGraphStore.find_all_paths (s : MemoryGraphStore)
    (start_id end_id : String) (max_length : ℤ) : List PathResult :=
  let g := s.graph
  if start_id ∈ g.nodes ∧ end_id ∈ g.nodes then
    if start_id = end_id then []
    else if max_length < 1 then []
    else
      ((DiGraph.dfsPaths g end_id max_length.toNat [] start_id).take 5).map
        fun path =>
          ⟨path, (path.zip path.tail).filterMap fun pr => g.edgeData pr.1 pr.2,
            path.length - 1⟩
  else []

/-- C4 (amended): `find_all_paths` returns at most 5 simple paths from
`start` to `end` of at most `max_length` hops, in DFS discovery order over
the adjacency structure; the list is NOT sorted by ascending length (see
the counterexample). -/
theorem C4_find_all_paths (s : MemoryGraphStore) (a b : String) (ml : ℤ) :
    (s.find_all_paths a b ml).length ≤ 5 ∧
    ∀ p ∈ s.find_all_paths a b ml,
      p.pages.Nodup ∧ p.pages.head? = some a ∧ p.pages.getLast? = some b ∧
      p.total_steps + 1 = p.pages.length ∧ (p.total_steps : ℤ) ≤ ml := by
  rw [MemoryGraphStore.find_all_paths]
  by_cases hg : a ∈ s.graph.nodes ∧ b ∈ s.graph.nodes
  · rw [if_pos hg]
    by_cases hab : a = b
    · rw [if_pos hab]
      exact ⟨by simp, fun p hp => absurd hp (List.not_mem_nil p)⟩
    rw [if_neg hab]
    by_cases hml : ml < 1
    · rw [if_pos hml]
      exact ⟨by simp, fun p hp => absurd hp (List.not_mem_nil p)⟩
    rw [if_neg hml]
    constructor
    · rw [List.length_map]
      exact le_trans (List.length_take_le 5 _) (le_refl 5)
    · intro p hp
      rcases List.mem_map.mp hp with ⟨path, hpath, rfl⟩
      have hmem : path ∈ DiGraph.dfsPaths s.graph b ml.toNat [] a :=
        List.mem_of_mem_take hpath
      obtain ⟨⟨q, hq, hqne, hqlast⟩, hnd, hlen⟩ :=
        DiGraph.dfsPaths_spec s.graph b ml.toNat [] a (by simp) path hmem
      simp only [List.nil_append] at hq
      subst hq
      refine ⟨hnd, by simp, ?_, ?_, ?_⟩
      · rcases q with _ | ⟨x, q'⟩
        · exact absurd rfl hqne
        · show (a :: x :: q').getLast? = some b
          rw [List.getLast?_cons_cons]
          exact hqlast
      · show (a :: q).length - 1 + 1 = (a :: q).length
        simp
      · show (((a :: q).length - 1 : ℕ) : ℤ) ≤ ml
        simp only [List.singleton_append, List.nil_append, List.length_cons,
          List.length_nil] at hlen
        have hml0 : (ml.toNat : ℤ) = ml := Int.toNat_of_nonneg (by omega)
        simp only [List.length_cons]
        omega
  · rw [if_neg hg]
    exact ⟨by simp, fun p hp => absurd hp (List.not_mem_nil p)⟩

/-- A minimal concrete transition used by witnesses. -/
def sampleTransition (tid src tgt : String) : Transition :=
  { transition_id := tid, source_page_id := src, target_page_id := tgt
    trigger_widget_id := "", trigger_widget_text := "", action_type := "click"
    input_data := [], success_count := 0, fail_count := 0, avg_latency_ms := 0 }

/-- Diamond store A→B→C, A→C (edge A→B inserted before A→C). -/
def storeC4 : MemoryGraphStore :=
  (((((MemoryGraphStore.init.add_page (samplePage "A")).add_page
    (samplePage "B")).add_page (samplePage "C")).add_transition
    (sampleTransition "t1" "A" "B")).add_transition
    (sampleTransition "t2" "B" "C")).add_transition
    (sampleTransition "t3" "A" "C")

/-- Counterexample to C4 as stated: on the diamond, `find_all_paths`
returns the 2-hop path before the 1-hop path (DFS discovery order), so the
result is not ordered by ascending path length. -/
theorem C4_find_all_paths_counterexample :
    (storeC4.find_all_paths "A" "C" 10).map PathResult.total_steps = [2, 1] ∧
    ¬ ((storeC4.find_all_paths "A" "C" 10).map PathResult.total_steps).Sorted
      (· ≤ ·) := by
  refine ⟨by decide, ?_⟩
  have he : (storeC4.find_all_paths "A" "C" 10).map PathResult.total_steps
      = [2, 1] := by decide
  rw [he]
  decide

/-- Witness for the amended C4: the first returned path on the diamond is
the simple 2-hop path A→B→C. -/
theorem C4_find_all_paths_witness :
    (⟨["A", "B", "C"],
      [(sampleTransition "t1" "A" "B").to_dict,
       (sampleTransition "t2" "B" "C").to_dict], 2⟩ : PathResult).pages.Nodup ∧
    (⟨["A", "B", "C"],
      [(sampleTransition "t1" "A" "B").to_dict,
       (sampleTransition "t2" "B" "C").to_dict], 2⟩ : PathResult).pages.head? =
      some "A" :=
  let h := (C4_find_all_paths storeC4 "A" "C" 10).2
    ⟨["A", "B", "C"],
      [(sampleTransition "t1" "A" "B").to_dict,
       (sampleTransition "t2" "B" "C").to_dict], 2⟩ (by decide)
  ⟨h.1, h.2.1⟩

/-! ## Transition statistics (claims C1, C9) and the CRUD round trip (C8) -/

/-- A sequence of `update_transition_stats` calls for one transition id. -/
def applyReports (s : MemoryGraphStore) (tid : String)
    (reports : List (Bool × ℤ)) : MemoryGraphStore :=
  reports.foldl (fun st r => st.update_transition_stats tid r.1 r.2) s

/-- One step of the integer-truncated running-average recurrence
`avg' = int((avg * (n - 1) + latency) / n)`, carried with the observation
count. -/
def truncAvgStep (p : ℤ × ℤ) (lat : ℤ) : ℤ × ℤ :=
  (Int.tdiv (p.1 * p.2 + lat) (p.2 + 1), p.2 + 1)

/-- The integer-truncated running average of a latency sequence, started
from average `a₀` over `n₀` prior observations. -/
def truncRunningAvg (a₀ n₀ : ℤ) (lats : List ℤ) : ℤ × ℤ :=
  lats.foldl truncAvgStep (a₀, n₀)

theorem length_filter_fst_add (reports : List (Bool × ℤ)) :
    (reports.filter fun r => r.1).length +
      (reports.filter fun r => !r.1).length = reports.length := by
  induction reports with
  | nil => rfl
  | cons r rest ih =>
    cases hb : r.1 <;>
      simp only [List.filter_cons, hb, Bool.not_true, Bool.not_false, cond_true,
        cond_false, List.length_cons, if_pos, if_neg] <;> simp [hb] <;> omega

/-- The transition value written by one `update_transition_stats` call on a
stored transition `t`. -/
def updatedTransition (t : Transition) (b : Bool) (lat : ℤ) : Transition :=
  let t₁ :=
    if b then { t with success_count := t.success_count + 1 }
    else { t with fail_count := t.fail_count + 1 }
  let total := t₁.success_count + t₁.fail_count
  { t₁ with
    avg_latency_ms := Int.tdiv (t₁.avg_latency_ms * (total - 1) + lat) total }

theorem update_transition_stats_found (s : MemoryGraphStore) (tid : String)
    (b : Bool) (lat : ℤ) (t : Transition)
    (h : assocGet s.transitions tid = some t) :
    s.update_transition_stats tid b lat =
      { s with transitions := assocUpd s.transitions tid (updatedTransition t b lat) } := by
  rw [MemoryGraphStore.update_transition_stats, h]
  rfl

theorem updatedTransition_success (t : Transition) (b : Bool) (lat : ℤ) :
    (updatedTransition t b lat).success_count =
      t.success_count + (if b then 1 else 0) := by
  cases b <;> simp [updatedTransition]

theorem updatedTransition_fail (t : Transition) (b : Bool) (lat : ℤ) :
    (updatedTransition t b lat).fail_count =
      t.fail_count + (if b then 0 else 1) := by
  cases b <;> simp [updatedTransition]

theorem updatedTransition_step (t : Transition) (b : Bool) (lat : ℤ) :
    ((updatedTransition t b lat).avg_latency_ms,
      (updatedTransition t b lat).success_count +
        (updatedTransition t b lat).fail_count) =
      truncAvgStep (t.avg_latency_ms, t.success_count + t.fail_count) lat := by
  cases b with
  | false =>
    show (Int.tdiv
        (t.avg_latency_ms * (t.success_count + (t.fail_count + 1) - 1) + lat)
        (t.success_count + (t.fail_count + 1)),
      t.success_count + (t.fail_count + 1)) =
      (Int.tdiv (t.avg_latency_ms * (t.success_count + t.fail_count) + lat)
        (t.success_count + t.fail_count + 1),
      t.success_count + t.fail_count + 1)
    rw [Prod.mk.injEq]
    refine ⟨?_, by ring⟩
    congr 1 <;> ring
  | true =>
    show (Int.tdiv
        (t.avg_latency_ms * (t.success_count + 1 + t.fail_count - 1) + lat)
        (t.success_count + 1 + t.fail_count),
      t.success_count + 1 + t.fail_count) =
      (Int.tdiv (t.avg_latency_ms * (t.success_count + t.fail_count) + lat)
        (t.success_count + t.fail_count + 1),
      t.success_count + t.fail_count + 1)
    rw [Prod.mk.injEq]
    refine ⟨?_, by ring⟩
    congr 1 <;> ring

/-- Folding a report sequence over a stored transition: counters count the
outcomes and the latency average follows the truncated recurrence, keyed by
the running total observation count. -/
theorem applyReports_spec (s : MemoryGraphStore) (tid : String) :
    ∀ (reports : List (Bool × ℤ)) (t : Transition),
      assocGet s.transitions tid = some t →
      ∃ t', assocGet (applyReports s tid reports).transitions tid = some t' ∧
        t'.success_count = t.success_count +
          ((reports.filter fun r => r.1).length : ℤ) ∧
        t'.fail_count = t.fail_count +
          ((reports.filter fun r => !r.1).length : ℤ) ∧
        t'.avg_latency_ms =
          (truncRunningAvg t.avg_latency_ms (t.success_count + t.fail_count)
            (reports.map Prod.snd)).1 ∧
        t'.success_count + t'.fail_count =
          (truncRunningAvg t.avg_latency_ms (t.success_count + t.fail_count)
            (reports.map Prod.snd)).2 := by
  intro reports
  induction reports generalizing s with
  | nil =>
    intro t h
    exact ⟨t, h, by simp, by simp, rfl, rfl⟩
  | cons r rest ih =>
    intro t h
    obtain ⟨b, lat⟩ := r
    have hget : assocGet (s.update_transition_stats tid b lat).transitions tid =
        some (updatedTransition t b lat) := by
      rw [update_transition_stats_found s tid b lat t h]
      exact assocGet_upd_self _ _ _
    have happly : applyReports s tid ((b, lat) :: rest) =
        applyReports (s.update_transition_stats tid b lat) tid rest := rfl
    obtain ⟨t', hget', hs', hf', ha', hc'⟩ :=
      ih (s.update_transition_stats tid b lat) (updatedTransition t b lat) hget
    have hfoldpair : truncRunningAvg (updatedTransition t b lat).avg_latency_ms
        ((updatedTransition t b lat).success_count +
          (updatedTransition t b lat).fail_count) (rest.map Prod.snd) =
        truncRunningAvg t.avg_latency_ms (t.success_count + t.fail_count)
          (((b, lat) :: rest).map Prod.snd) := by
      simp only [List.map_cons, truncRunningAvg, List.foldl_cons]
      rw [← updatedTransition_step t b lat]
    refine ⟨t', by rw [happly]; exact hget', ?_, ?_, ?_, ?_⟩
    · rw [hs', updatedTransition_success]
      cases b <;> simp [List.filter_cons] <;> ring
    · rw [hf', updatedTransition_fail]
      cases b <;> simp [List.filter_cons] <;> ring
    · rw [ha', hfoldpair]
    · rw [hc', hfoldpair]

theorem truncRunningAvg_const_steady (c : ℤ) :
    ∀ (lats : List ℤ) (n : ℤ), 0 ≤ n → (∀ l ∈ lats, l = c) →
      truncRunningAvg c n lats = (c, n + lats.length) := by
  intro lats
  induction lats with
  | nil => intro n _ _; simp [truncRunningAvg]
  | cons l rest ih =>
    intro n hn hl
    have hlc : l = c := hl l (List.mem_cons_self _ _)
    subst hlc
    have hstep : truncAvgStep (l, n) l = (l, n + 1) := by
      rw [truncAvgStep]
      have : l * n + l = l * (n + 1) := by ring
      rw [Prod.mk.injEq, this]
      exact ⟨Int.mul_tdiv_cancel l (by omega), rfl⟩
    rw [truncRunningAvg, List.foldl_cons]
    rw [show List.foldl truncAvgStep (truncAvgStep (l, n) l) rest =
      truncRunningAvg (truncAvgStep (l, n) l).1 (truncAvgStep (l, n) l).2 rest
      from rfl, hstep]
    rw [ih (n + 1) (by omega) fun x hx => hl x (List.mem_cons_of_mem _ hx)]
    rw [List.length_cons]
    rw [Prod.mk.injEq]
    exact ⟨rfl, by push_cast; ring⟩

theorem truncRunningAvg_const (a₀ c : ℤ) (lats : List ℤ) (hne : lats ≠ [])
    (hl : ∀ l ∈ lats, l = c) : (truncRunningAvg a₀ 0 lats).1 = c := by
  rcases lats with _ | ⟨l, rest⟩
  · exact absurd rfl hne
  · have hlc : l = c := hl l (List.mem_cons_self _ _)
    subst hlc
    have hstep : truncAvgStep (a₀, 0) l = (l, 1) := by
      rw [truncAvgStep]
      rw [Prod.mk.injEq]
      constructor
      · rw [show a₀ * 0 + l = l by ring]
        exact Int.tdiv_one l
      · rfl
    rw [truncRunningAvg, List.foldl_cons]
    rw [show List.foldl truncAvgStep (truncAvgStep (a₀, 0) l) rest =
      truncRunningAvg (truncAvgStep (a₀, 0) l).1 (truncAvgStep (a₀, 0) l).2 rest
      from rfl, hstep]
    rw [truncRunningAvg_const_steady l rest 1 (by omega)
      fun x hx => hl x (List.mem_cons_of_mem _ hx)]

/-- C1 (amended): starting from a freshly created transition (zero counts),
any report sequence of `k` successes and `m` failures leaves
`success_count = k`, `fail_count = m` and `success_rate = k / (k + m)`
exactly (`0.0` when no observation), in any order; `avg_latency_ms`,
however, follows the integer-truncated recurrence
`avg' = int((avg * (n - 1) + latency) / n)` rather than the exact
arithmetic mean of the latencies (see the counterexample); when every
reported latency equals a common constant `c`, the truncated average does
equal the exact mean `c`. -/
theorem C1_update_transition_stats (s : MemoryGraphStore) (tid : String)
    (t₀ : Transition) (reports : List (Bool × ℤ))
    (h : assocGet s.transitions tid = some t₀)
    (hs0 : t₀.success_count = 0) (hf0 : t₀.fail_count = 0) :
    ∃ t', assocGet (applyReports s tid reports).transitions tid = some t' ∧
      t'.success_count = ((reports.filter fun r => r.1).length : ℤ) ∧
      t'.fail_count = ((reports.filter fun r => !r.1).length : ℤ) ∧
      t'.success_rate =
        (((reports.filter fun r => r.1).length : ℚ)) / (reports.length : ℚ) ∧
      (reports = [] → t'.success_rate = 0) ∧
      t'.avg_latency_ms =
        (truncRunningAvg t₀.avg_latency_ms 0 (reports.map Prod.snd)).1 ∧
      (∀ c : ℤ, reports ≠ [] → (∀ l ∈ reports.map Prod.snd, l = c) →
        t'.avg_latency_ms = c) := by
  obtain ⟨t', hget', hs', hf', ha', _⟩ := applyReports_spec s tid reports t₀ h
  rw [hs0] at hs' ha'
  rw [hf0] at hf' ha'
  simp only [zero_add, add_zero] at hs' hf' ha'
  have hkm : (reports.filter fun r => r.1).length +
      (reports.filter fun r => !r.1).length = reports.length :=
    length_filter_fst_add reports
  refine ⟨t', hget', hs', hf', ?_, ?_, ha', ?_⟩
  · rw [Transition.success_rate, hs', hf']
    by_cases hpos : (0 : ℤ) < (reports.filter fun r => r.1).length +
        (reports.filter fun r => !r.1).length
    · rw [if_pos hpos]
      rw [← hkm]
      push_cast
      ring
    · rw [if_neg hpos]
      have h1 : (reports.filter fun r => r.1).length = 0 := by omega
      have h2 : reports.length = 0 := by omega
      rw [h1, h2]
      norm_num
  · intro hnil
    subst hnil
    rw [Transition.success_rate, hs', hf']
    simp
  · intro c hne hc
    rw [ha']
    refine truncRunningAvg_const t₀.avg_latency_ms c (reports.map Prod.snd) ?_ hc
    intro hmapnil
    exact hne (List.map_eq_nil_iff.mp hmapnil)

/-- Store with one fresh transition, for the C1 counterexample/witness. -/
def storeC1 : MemoryGraphStore :=
  MemoryGraphStore.init.add_transition (sampleTransition "t" "A" "B")

/-- Counterexample to C1 as stated: after two successes with latencies 1
then 2 the exact mean is 3/2, but the stored integer average is 1 (the
update truncates with `int(...)` at every step). -/
theorem C1_update_transition_stats_counterexample :
    (assocGet (applyReports storeC1 "t" [(true, 1), (true, 2)]).transitions
      "t").map Transition.avg_latency_ms = some 1 ∧
    ((1 : ℚ) ≠ (1 + 2) / 2) := by
  exact ⟨by decide, by norm_num⟩

/-- Witness for the amended C1: one success and one failure with constant
latency 3 give `success_rate = 1/2` and `avg_latency_ms = 3`. -/
theorem C1_update_transition_stats_witness :
    ∃ t', assocGet (applyReports storeC1 "t" [(true, 3), (false, 3)]).transitions
        "t" = some t' ∧
      t'.success_count = ((([( true, 3), (false, 3)] :
        List (Bool × ℤ)).filter fun r => r.1).length : ℤ) ∧
      t'.fail_count = ((([(true, 3), (false, 3)] :
        List (Bool × ℤ)).filter fun r => !r.1).length : ℤ) ∧
      t'.success_rate = ((([(true, 3), (false, 3)] :
          List (Bool × ℤ)).filter fun r => r.1).length : ℚ) /
        (([(true, 3), (false, 3)] : List (Bool × ℤ)).length : ℚ) ∧
      (([(true, 3), (false, 3)] : List (Bool × ℤ)) = [] → t'.success_rate = 0) ∧
      t'.avg_latency_ms = (truncRunningAvg
        (sampleTransition "t" "A" "B").avg_latency_ms 0
        (([(true, 3), (false, 3)] : List (Bool × ℤ)).map Prod.snd)).1 ∧
      (∀ c : ℤ, ([(true, 3), (false, 3)] : List (Bool × ℤ)) ≠ [] →
        (∀ l ∈ ([(true, 3), (false, 3)] : List (Bool × ℤ)).map Prod.snd, l = c) →
        t'.avg_latency_ms = c) :=
  C1_update_transition_stats storeC1 "t" (sampleTransition "t" "A" "B")
    [(true, 3), (false, 3)] (by decide) (by decide) (by decide)

/-- C8: `add_page` followed by `get_page` on the same id recovers the very
page that was stored. -/
theorem C8_add_page_get_page (s : MemoryGraphStore) (p : Page) :
    (s.add_page p).get_page p.page_id = some p :=
  assocGet_upd_self s.pages p.page_id p

/-- C9: `update_transition_stats` on an id not present in the store is a
silent no-op: the whole store — pages, transitions, apps and the adjacency
structure — is returned unchanged, and no error is raised. -/
theorem C9_update_unknown_transition_noop (s : MemoryGraphStore)
    (tid : String) (success : Bool) (latency_ms : ℤ)
    (h : assocGet s.transitions tid = none) :
    s.update_transition_stats tid success latency_ms = s := by
  rw [MemoryGraphStore.update_transition_stats, h]

/-- Witness for C9: updating a transition id absent from a concrete store
leaves the store untouched. -/
theorem C9_update_unknown_transition_noop_witness :
    storeC2.update_transition_stats "missing" true 5 = storeC2 :=
  C9_update_unknown_transition_noop storeC2 "missing" true 5 (by decide)

/-! ## `MemoryVectorStore` (vector_store.py:46-164)

NumPy `float32` arithmetic is idealised as exact real arithmetic; vectors
are `List ℝ` and `np.linalg.norm` is `Real.sqrt` of the dot product, which
makes the normalisation noncomputable (comparisons on `ℝ` use the classical
order).  The two Python dicts `self.vectors` / `self.metadata` are updated
in lockstep by every operation, so the store is modelled as a single
insertion-ordered entry list keyed by id.  `list.sort(key=..., reverse=True)`
is Python's stable descending sort, modelled by a stable insertion sort. -/

/-- `np.dot`, idealised (`zipWith` truncates at the shorter vector). -/
def dot (v w : List ℝ) : ℝ := (List.zipWith (· * ·) v w).sum

/-- `np.linalg.norm`. -/
noncomputable def l2norm (v : List ℝ) : ℝ := Real.sqrt (dot v v)

/-- The normalisation performed by `insert` and `search`
(vector_store.py:62-65, 79-82): divide by the norm when it is positive. -/
noncomputable def normalize (v : List ℝ) : List ℝ :=
  if l2norm v > 0 then v.map (· / l2norm v) else v

/-- One stored vector with its metadata bag. -/
structure VEntry (M : Type) where
  id : String
  vec : List ℝ
  meta : M

/-- `MemoryVectorStore` (vector_store.py:46-57): a fixed dimension plus the
insertion-ordered id-keyed entries. -/
structure MemoryVectorStore (M : Type) where
  dimension : ℕ
  entries : List (VEntry M)

/-- `SearchResult` (vector_store.py:15-27). -/
structure SearchResult (M : Type) where
  id : String
  score : ℝ
  metadata : M

/-- Dict assignment keyed by `VEntry.id`: replace in place or append. -/
def updEntry {M : Type} : List (VEntry M) → VEntry M → List (VEntry M)
  | [], e => [e]
  | x :: xs, e => if x.id = e.id then e :: xs else x :: updEntry xs e

namespace MemoryVectorStore

/-- `insert` (vector_store.py:59-67): stores the L2-normalised copy. -/
noncomputable def insert {M : Type} (s : MemoryVectorStore M) (id : String)
    (vector : List ℝ) (metadata : M) : MemoryVectorStore M :=
  { s with entries := updEntry s.entries ⟨id, normalize vector, metadata⟩ }

/-- `count` (vector_store.py:155-157). -/
def count {M : Type} (s : MemoryVectorStore M) : ℕ := s.entries.length

end MemoryVectorStore

/-- Stable insertion into a list sorted by descending key: an element is
placed after every earlier element whose key is at least as large. -/
def insertDesc {α K : Type} [LinearOrder K] (key : α → K) (x : α) :
    List α → List α
  | [] => [x]
  | y :: ys => if key x ≤ key y then y :: insertDesc key x ys else x :: y :: ys

/-- Python's stable `sort(key=..., reverse=True)`. -/
def sortDesc {α K : Type} [LinearOrder K] (key : α → K) (l : List α) : List α :=
  l.foldl (fun acc x => insertDesc key x acc) []

/-- The unsorted score list built by `search` (vector_store.py:85-88). -/
def scoresOf {M : Type} (s : MemoryVectorStore M) (q : List ℝ) :
    List (SearchResult M) :=
  s.entries.map fun e => ⟨e.id, dot q e.vec, e.meta⟩

namespace MemoryVectorStore

/-- `search` (vector_store.py:74-101): normalise the query, score every
entry, stable-sort descending, return the first `top_k` results. -/
noncomputable def search {M : Type} (s : MemoryVectorStore M)
    (query_vector : List ℝ) (top_k : ℕ) : List (SearchResult M) :=
  if s.entries.isEmpty then []
  else
    ((sortDesc (fun r => r.score)
      (scoresOf s (normalize query_vector))).take top_k)

/-- `search_with_filter` (vector_store.py:103-135): identical, but entries
whose metadata fails the predicate are skipped before scoring. -/
noncomputable def search_with_filter {M : Type} (s : MemoryVectorStore M)
    (query_vector : List ℝ) (top_k : ℕ) (filter_fn : M → Prop)
    [DecidablePred filter_fn] : List (SearchResult M) :=
  if s.entries.isEmpty then []
  else
    ((sortDesc (fun r => r.score)
      (scoresOf ⟨s.dimension, s.entries.filter fun e => filter_fn e.meta⟩
        (normalize query_vector))).take top_k)

/-- The sub-index containing only the entries whose metadata satisfies the
predicate (used to state the C7 refinement). -/
def filterStore {M : Type} (s : MemoryVectorStore M) (filter_fn : M → Prop)
    [DecidablePred filter_fn] : MemoryVectorStore M :=
  ⟨s.dimension, s.entries.filter fun e => filter_fn e.meta⟩

end MemoryVectorStore

theorem insertDesc_perm {α K : Type} [LinearOrder K] (key : α → K) (x : α) (l : List α) :
    (insertDesc key x l).Perm (x :: l) := by
  induction l with
  | nil => rfl
  | cons y ys ih =>
    rw [insertDesc]
    by_cases h : key x ≤ key y
    · rw [if_pos h]
      exact (List.Perm.cons y ih).trans (List.Perm.swap x y ys)
    · rw [if_neg h]

theorem sortDesc_perm {α K : Type} [LinearOrder K] (key : α → K) (l : List α) :
    (sortDesc key l).Perm l := by
  have main : ∀ (l acc : List α),
      (l.foldl (fun acc x => insertDesc key x acc) acc).Perm (acc ++ l) := by
    intro l
    induction l with
    | nil => intro acc; simp
    | cons x xs ih =>
      intro acc
      rw [List.foldl_cons]
      refine (ih (insertDesc key x acc)).trans ?_
      have h1 : (insertDesc key x acc ++ xs).Perm ((x :: acc) ++ xs) :=
        (insertDesc_perm key x acc).append_right xs
      refine h1.trans ?_
      exact List.perm_middle.symm
  simpa using main l []

theorem insertDesc_sorted {α K : Type} [LinearOrder K] (key : α → K) (x : α) (l : List α)
    (h : l.Sorted fun a b => key b ≤ key a) :
    (insertDesc key x l).Sorted fun a b => key b ≤ key a := by
  induction l with
  | nil => simp [insertDesc]
  | cons y ys ih =>
    rw [List.sorted_cons] at h
    rw [insertDesc]
    by_cases hxy : key x ≤ key y
    · rw [if_pos hxy]
      rw [List.sorted_cons]
      refine ⟨?_, ih h.2⟩
      intro b hb
      have hb' : b ∈ x :: ys := (insertDesc_perm key x ys).mem_iff.mp hb
      rcases List.mem_cons.mp hb' with rfl | hb''
      · exact hxy
      · exact h.1 b hb''
    · rw [if_neg hxy]
      rw [List.sorted_cons]
      refine ⟨?_, List.sorted_cons.mpr h⟩
      intro b hb
      rcases List.mem_cons.mp hb with rfl | hb
      · exact le_of_lt (lt_of_not_le hxy)
      · exact le_trans (h.1 b hb) (le_of_lt (lt_of_not_le hxy))

theorem sortDesc_sorted {α K : Type} [LinearOrder K] (key : α → K) (l : List α) :
    (sortDesc key l).Sorted fun a b => key b ≤ key a := by
  have main : ∀ (l acc : List α), (acc.Sorted fun a b => key b ≤ key a) →
      ((l.foldl (fun acc x => insertDesc key x acc) acc).Sorted
        fun a b => key b ≤ key a) := by
    intro l
    induction l with
    | nil => intro acc h; exact h
    | cons x xs ih =>
      intro acc h
      rw [List.foldl_cons]
      exact ih _ (insertDesc_sorted key x acc h)
  exact main l [] (by simp)

theorem dot_nil_left (w : List ℝ) : dot [] w = 0 := rfl

theorem dot_nil_right (v : List ℝ) : dot v [] = 0 := by
  cases v <;> rfl

theorem dot_cons_cons (a b : ℝ) (v w : List ℝ) :
    dot (a :: v) (b :: w) = a * b + dot v w := by
  simp [dot]

theorem dot_self_nonneg (v : List ℝ) : 0 ≤ dot v v := by
  induction v with
  | nil => simp [dot]
  | cons a v' ih =>
    rw [dot_cons_cons]
    nlinarith [mul_self_nonneg a]

/-- Cauchy–Schwarz for truncating list dot products. -/
theorem dot_sq_le (v : List ℝ) : ∀ w, (dot v w) ^ 2 ≤ dot v v * dot w w := by
  induction v with
  | nil => intro w; simp [dot]
  | cons a v' ih =>
    intro w
    rcases w with _ | ⟨b, w'⟩
    · rw [dot_nil_right, dot_nil_right]
      simp
    · rw [dot_cons_cons, dot_cons_cons, dot_cons_cons]
      have h := ih w'
      have hA := dot_self_nonneg v'
      have hB := dot_self_nonneg w'
      by_cases hB0 : dot w' w' = 0
      · have hS2 : (dot v' w') ^ 2 ≤ 0 := by rw [hB0] at h; linarith
        have hS : dot v' w' = 0 := by
          have hnn := sq_nonneg (dot v' w')
          exact sq_eq_zero_iff.mp (le_antisymm hS2 hnn)
        rw [hS, hB0]
        nlinarith [mul_nonneg hA (mul_self_nonneg b), sq_nonneg (a * b)]
      · have hBpos : 0 < dot w' w' := lt_of_le_of_ne hB (Ne.symm hB0)
        nlinarith [sq_nonneg (a * dot w' w' - b * dot v' w'),
          mul_nonneg (mul_self_nonneg b) (sub_nonneg.mpr h),
          mul_nonneg (le_of_lt hBpos) (sub_nonneg.mpr h), hBpos, hA]

theorem dot_le_norms (v w : List ℝ) : dot v w ≤ l2norm v * l2norm w := by
  have h := dot_sq_le v w
  calc dot v w ≤ |dot v w| := le_abs_self _
    _ = Real.sqrt ((dot v w) ^ 2) := (Real.sqrt_sq_eq_abs _).symm
    _ ≤ Real.sqrt (dot v v * dot w w) := Real.sqrt_le_sqrt h
    _ = l2norm v * l2norm w := by
        rw [l2norm, l2norm, Real.sqrt_mul (dot_self_nonneg v)]

theorem dot_map_div (c : ℝ) : ∀ (v w : List ℝ),
    dot (v.map (· / c)) (w.map (· / c)) = dot v w / (c * c) := by
  intro v
  induction v with
  | nil => intro w; simp [dot]
  | cons a v' ih =>
    intro w
    rcases w with _ | ⟨b, w'⟩
    · simp [dot_nil_right]
    · simp only [List.map_cons]
      rw [dot_cons_cons, dot_cons_cons, ih w', div_mul_div_comm,
        div_add_div_same]

theorem dot_normalize_self (v : List ℝ) (hv : dot v v ≠ 0) :
    dot (normalize v) (normalize v) = 1 := by
  have hpos : 0 < dot v v := lt_of_le_of_ne (dot_self_nonneg v) (Ne.symm hv)
  have hnorm : 0 < l2norm v := Real.sqrt_pos.mpr hpos
  rw [normalize, if_pos hnorm, dot_map_div]
  rw [show l2norm v * l2norm v = dot v v from by
    rw [l2norm]; exact Real.mul_self_sqrt (dot_self_nonneg v)]
  exact div_self hv

theorem l2norm_normalize (v : List ℝ) (hv : dot v v ≠ 0) :
    l2norm (normalize v) = 1 := by
  rw [l2norm, dot_normalize_self v hv, Real.sqrt_one]

theorem normalize_eq_self_of_dot_zero (v : List ℝ) (hv : dot v v = 0) :
    normalize v = v := by
  have h0 : l2norm v = 0 := by rw [l2norm, hv, Real.sqrt_zero]
  rw [normalize, if_neg (by rw [h0]; exact lt_irrefl 0)]

theorem l2norm_normalize_le_one (v : List ℝ) : l2norm (normalize v) ≤ 1 := by
  by_cases hv : dot v v = 0
  · rw [normalize_eq_self_of_dot_zero v hv, l2norm, hv, Real.sqrt_zero]
    norm_num
  · rw [l2norm_normalize v hv]

theorem normalize_idem (v : List ℝ) (hv : dot v v ≠ 0) :
    normalize (normalize v) = normalize v := by
  have h1 : l2norm (normalize v) = 1 := l2norm_normalize v hv
  rw [show normalize (normalize v) =
    if l2norm (normalize v) > 0 then
      (normalize v).map (· / l2norm (normalize v))
    else normalize v from rfl]
  rw [h1, if_pos one_pos]
  simp

/-- Every score produced against a store of normalised vectors by a
normalised query is at most 1. -/
theorem scoresOf_le_one {M : Type} (s : MemoryVectorStore M) (u : List ℝ)
    (hnorm : ∀ e ∈ s.entries, ∃ w, e.vec = normalize w) :
    ∀ r ∈ scoresOf s (normalize u), r.score ≤ 1 := by
  intro r hr
  rcases List.mem_map.mp hr with ⟨e, he, rfl⟩
  obtain ⟨w, hw⟩ := hnorm e he
  show dot (normalize u) e.vec ≤ 1
  rw [hw]
  calc dot (normalize u) (normalize w) ≤
      l2norm (normalize u) * l2norm (normalize w) := dot_le_norms _ _
    _ ≤ 1 * 1 := by
        have h1 := l2norm_normalize_le_one u
        have h2 := l2norm_normalize_le_one w
        have h3 : 0 ≤ l2norm (normalize w) := Real.sqrt_nonneg _
        nlinarith [Real.sqrt_nonneg (dot (normalize u) (normalize u))]
    _ = 1 := by norm_num

theorem head?_take {α : Type} (k : ℕ) (hk : 1 ≤ k) (l : List α) :
    (l.take k).head? = l.head? := by
  cases l with
  | nil => simp
  | cons x xs =>
    rcases k with _ | k'
    · omega
    · simp [List.take]

theorem sorted_head_ge {α : Type} (key : α → ℝ) (l : List α)
    (hs : l.Sorted fun a b => key b ≤ key a) (x : α) (hx : x ∈ l) :
    ∃ h, l.head? = some h ∧ key x ≤ key h := by
  cases l with
  | nil => exact absurd hx (List.not_mem_nil x)
  | cons h t =>
    refine ⟨h, rfl, ?_⟩
    rcases List.mem_cons.mp hx with rfl | hx'
    · exact le_refl _
    · exact (List.sorted_cons.mp hs).1 x hx'

/-- With at least `top_k` stored entries, `search` returns exactly `top_k`
results. -/
theorem search_length {M : Type} (s : MemoryVectorStore M) (q : List ℝ)
    (k : ℕ) (hk : k ≤ s.count) : (s.search q k).length = k := by
  rw [MemoryVectorStore.search]
  by_cases hqe : s.entries.isEmpty
  · rw [if_pos hqe]
    have : s.entries = [] := List.isEmpty_iff.mp hqe
    rw [MemoryVectorStore.count, this] at hk
    have hk0 : k = 0 := by simpa using hk
    simp [hk0]
  · rw [if_neg hqe]
    rw [List.length_take]
    have hlen : (sortDesc (fun r => r.score)
        (scoresOf s (normalize q))).length = s.count := by
      rw [(sortDesc_perm _ _).length_eq]
      simp [scoresOf, MemoryVectorStore.count]
    omega

/-- C3 (amended): `search` with `top_k = k'` on at least `k'` stored vectors
returns exactly `k'` results, always sorted by non-increasing score.  If the
vector inserted for id `x` was nonzero, the entry for `x` scores exactly 1.0
when queried with `x`'s stored (normalised) vector, and the first returned
result has score exactly 1.0 — but it need not be `x` itself when an
earlier-inserted entry holds an identical vector, and a zero inserted vector
scores 0.0, not 1.0 (see the counterexample). -/
theorem C3_search_self_similarity {M : Type} (s : MemoryVectorStore M)
    (k : ℕ) (x : String) (v : List ℝ) (m : M)
    (hnorm : ∀ e ∈ s.entries, ∃ w, e.vec = normalize w)
    (hx : (⟨x, normalize v, m⟩ : VEntry M) ∈ s.entries)
    (hv : dot v v ≠ 0) (hk : 1 ≤ k) :
    (∀ (q : List ℝ) (k' : ℕ), k' ≤ s.count → (s.search q k').length = k') ∧
    (∀ (q : List ℝ) (k' : ℕ),
      (s.search q k').Sorted fun r r' => r'.score ≤ r.score) ∧
    ((⟨x, 1, m⟩ : SearchResult M) ∈ scoresOf s (normalize v)) ∧
    ((s.search (normalize v) k).head?.map SearchResult.score = some 1) := by
  have hne : s.entries ≠ [] := by
    intro h0
    rw [h0] at hx
    exact List.not_mem_nil _ hx
  have hxscore : (⟨x, 1, m⟩ : SearchResult M) ∈ scoresOf s (normalize v) := by
    have h1 : (⟨x, dot (normalize v) (normalize v), m⟩ : SearchResult M) ∈
        scoresOf s (normalize v) :=
      List.mem_map.mpr ⟨⟨x, normalize v, m⟩, hx, rfl⟩
    rw [dot_normalize_self v hv] at h1
    exact h1
  refine ⟨?_, ?_, hxscore, ?_⟩
  · intro q k' hk'
    exact search_length s q k' hk'
  · intro q k'
    rw [MemoryVectorStore.search]
    by_cases hqe : s.entries.isEmpty
    · rw [if_pos hqe]; simp
    · rw [if_neg hqe]
      have hs1 : List.Sorted (fun (a b : SearchResult M) => b.score ≤ a.score)
          (sortDesc (fun r => r.score) (scoresOf s (normalize q))) :=
        sortDesc_sorted (fun r => r.score) (scoresOf s (normalize q))
      exact List.Pairwise.sublist (List.take_sublist _ _) hs1
  · rw [MemoryVectorStore.search, if_neg (by simp [hne])]
    rw [normalize_idem v hv]
    rw [head?_take k hk]
    have hsorted := sortDesc_sorted (fun r => r.score)
      (scoresOf s (normalize v))
    have hmem : (⟨x, 1, m⟩ : SearchResult M) ∈
        sortDesc (fun r => r.score) (scoresOf s (normalize v)) :=
      (sortDesc_perm _ _).mem_iff.mpr hxscore
    obtain ⟨h, hh, hscore⟩ := sorted_head_ge _ _ hsorted _ hmem
    have hub : h.score ≤ 1 := by
      refine scoresOf_le_one s v hnorm h ?_
      have hh' : h ∈ sortDesc (fun r => r.score) (scoresOf s (normalize v)) :=
        List.mem_of_mem_head? hh
      exact (sortDesc_perm _ _).mem_iff.mp hh'
    rw [hh]
    have hone : h.score = 1 := le_antisymm hub hscore
    rw [show Option.map SearchResult.score (some h) = some h.score from rfl, hone]

/-- The empty two-dimensional vector store. -/
def emptyVS : MemoryVectorStore Unit := ⟨2, []⟩

/-- Store holding the zero vector under id "a". -/
noncomputable def storeZ : MemoryVectorStore Unit := emptyVS.insert "a" [0, 0] ()

/-- Store holding the identical unit vector under "a" (first) and "b". -/
noncomputable def storeD : MemoryVectorStore Unit :=
  (emptyVS.insert "a" [1, 0] ()).insert "b" [1, 0] ()

theorem dot_pair_zero : dot [(0 : ℝ), 0] [0, 0] = 0 := by
  rw [dot_cons_cons, dot_cons_cons, dot_nil_left]
  ring

theorem dot_pair_unit : dot [(1 : ℝ), 0] [1, 0] = 1 := by
  rw [dot_cons_cons, dot_cons_cons, dot_nil_left]
  ring

theorem normalize_pair_zero : normalize [(0 : ℝ), 0] = [0, 0] :=
  normalize_eq_self_of_dot_zero _ dot_pair_zero

theorem normalize_pair_unit : normalize [(1 : ℝ), 0] = [1, 0] := by
  have hn : l2norm [(1 : ℝ), 0] = 1 := by
    rw [l2norm, dot_pair_unit, Real.sqrt_one]
  rw [normalize, if_pos (by rw [hn]; norm_num), hn]
  simp

theorem storeZ_entries : storeZ.entries = [⟨"a", [(0 : ℝ), 0], ()⟩] := by
  rw [show storeZ.entries = [⟨"a", normalize [(0 : ℝ), 0], ()⟩] from rfl,
    normalize_pair_zero]

theorem storeD_entries : storeD.entries =
    [⟨"a", [(1 : ℝ), 0], ()⟩, ⟨"b", [(1 : ℝ), 0], ()⟩] := by
  rw [show storeD.entries =
    updEntry [⟨"a", normalize [(1 : ℝ), 0], ()⟩]
      ⟨"b", normalize [(1 : ℝ), 0], ()⟩ from rfl]
  rw [updEntry, if_neg (show ¬ ("a" : String) = "b" by decide), updEntry,
    normalize_pair_unit]

theorem sortDesc_singleton {α K : Type} [LinearOrder K] (key : α → K) (x : α) :
    sortDesc key [x] = [x] := rfl

theorem sortDesc_pair_of_le {α K : Type} [LinearOrder K] (key : α → K) (x y : α)
    (h : key y ≤ key x) : sortDesc key [x, y] = [x, y] := by
  show insertDesc key y (insertDesc key x []) = [x, y]
  rw [show insertDesc key x [] = [x] from rfl, insertDesc, if_pos h]
  rfl

/-- Counterexample to C3 as stated: a stored zero vector scores 0.0 (not
1.0) against its own stored copy, and with two identical stored vectors the
self-similarity search for the later id "b" ranks the earlier id "a" first
(stable sort ties), so `x` is not ranked first. -/
theorem C3_search_self_similarity_counterexample :
    storeZ.search [0, 0] 1 = [⟨"a", 0, ()⟩] ∧ (0 : ℝ) ≠ 1 ∧
    (storeD.search [1, 0] 2).map SearchResult.id = ["a", "b"] ∧
    ("a" : String) ≠ "b" := by
  refine ⟨?_, by norm_num, ?_, by decide⟩
  · rw [MemoryVectorStore.search,
      if_neg (by rw [storeZ_entries]; simp)]
    rw [normalize_pair_zero, scoresOf, storeZ_entries]
    rw [List.map_cons, List.map_nil, dot_pair_zero]
    rw [sortDesc_singleton]
    rfl
  · rw [MemoryVectorStore.search,
      if_neg (by rw [storeD_entries]; simp)]
    rw [normalize_pair_unit, scoresOf, storeD_entries]
    rw [List.map_cons, List.map_cons, List.map_nil, dot_pair_unit]
    show List.map SearchResult.id (List.take 2 (sortDesc (fun r => r.score)
      [⟨"a", 1, ()⟩, ⟨"b", 1, ()⟩])) = ["a", "b"]
    rw [sortDesc_pair_of_le (fun r : SearchResult Unit => r.score)
      (⟨"a", 1, ()⟩ : SearchResult Unit) (⟨"b", 1, ()⟩ : SearchResult Unit)
      (le_refl 1)]
    rfl

/-- Witness for the amended C3 on the duplicate-vector store: the first
result of the self-similarity search scores exactly 1.0. -/
theorem C3_search_self_similarity_witness :
    (storeD.search (normalize [1, 0]) 2).head?.map SearchResult.score =
      some 1 :=
  (C3_search_self_similarity storeD 2 "a" [1, 0] ()
    (by
      intro e he
      rw [storeD_entries] at he
      rcases List.mem_cons.mp he with rfl | he'
      · exact ⟨[1, 0], normalize_pair_unit.symm⟩
      · rcases List.mem_cons.mp he' with rfl | he''
        · exact ⟨[1, 0], normalize_pair_unit.symm⟩
        · exact absurd he'' (List.not_mem_nil e))
    (by
      rw [show (⟨"a", normalize [(1 : ℝ), 0], ()⟩ : VEntry Unit) =
        ⟨"a", [(1 : ℝ), 0], ()⟩ from by rw [normalize_pair_unit]]
      rw [storeD_entries]
      exact List.mem_cons_self _ _)
    (by rw [dot_pair_unit]; norm_num) (by norm_num)).2.2.2

/-- C7: `search_with_filter(query, top_k, predicate)` coincides with
running `search(query, top_k)` on the sub-index of the entries whose
metadata satisfies the predicate; in particular, whenever at least `top_k`
stored entries satisfy the predicate, exactly `top_k` results come back
(the filter precedes the top-k cut). -/
theorem C7_search_with_filter {M : Type} (s : MemoryVectorStore M)
    (q : List ℝ) (k : ℕ) (pred : M → Prop) [DecidablePred pred] :
    s.search_with_filter q k pred = (s.filterStore pred).search q k ∧
    (k ≤ (s.filterStore pred).count →
      (s.search_with_filter q k pred).length = k) := by
  have heq : s.search_with_filter q k pred = (s.filterStore pred).search q k := by
    rw [MemoryVectorStore.search_with_filter, MemoryVectorStore.search]
    by_cases h2 : ((s.filterStore pred).entries).isEmpty
    · rw [if_pos h2]
      have hfe : s.entries.filter (fun e => pred e.meta) = [] :=
        List.isEmpty_iff.mp h2
      by_cases h1 : s.entries.isEmpty
      · rw [if_pos h1]
      · rw [if_neg h1, hfe]
        simp [scoresOf, sortDesc]
    · rw [if_neg h2]
      by_cases h1 : s.entries.isEmpty
      · exfalso
        apply h2
        rw [show (s.filterStore pred).entries =
          s.entries.filter fun e => pred e.meta from rfl,
          List.isEmpty_iff.mp h1]
        rfl
      · rw [if_neg h1]
        rfl
  refine ⟨heq, ?_⟩
  intro hk
  rw [heq]
  exact search_length (s.filterStore pred) q k hk

/-- Witness for C7 on a concrete store: with a trivially true predicate and
`top_k = 1` on two qualifying entries, exactly one result is returned. -/
theorem C7_search_with_filter_witness :
    (storeD.search_with_filter [1, 0] 1 fun _ => True).length = 1 :=
  (C7_search_with_filter storeD [1, 0] 1 (fun _ => True)).2
    (by
      rw [MemoryVectorStore.count,
        show (storeD.filterStore fun _ => True).entries =
          storeD.entries.filter fun _ => True from rfl,
        storeD_entries]
      simp)

/-! ## `PageMatcher._merge_candidates` (page_matcher.py:221-245)

Candidates are `(page_id, score, strategy)` triples; scores are idealised
over `ℚ` (the boost factor 1.1 is the rational 11/10).  The grouping dict
iterates page ids in first-occurrence order; `max(set(types),
key=types.count)` picks a strategy of maximal contribution count (Python's
set iteration order is unspecified, so among tied maxima the concrete
choice is arbitrary; the model picks the first maximiser in
first-occurrence order, and the theorem only states maximality). -/

/-- First occurrences, in order (`dict` key order / deduplication). -/
def firstOccsAux {α : Type} [DecidableEq α] : List α → List α → List α
  | [], _ => []
  | x :: xs, seen =>
    if x ∈ seen then firstOccsAux xs seen else x :: firstOccsAux xs (x :: seen)

def firstOccs {α : Type} [DecidableEq α] (l : List α) : List α :=
  firstOccsAux l []

/-- The scores grouped under a page id, in candidate order. -/
def scoresFor (cands : List (String × ℚ × String)) (pid : String) : List ℚ :=
  (cands.filter fun c => c.1 = pid).map fun c => c.2.1

/-- The contributing strategy labels grouped under a page id. -/
def typesFor (cands : List (String × ℚ × String)) (pid : String) : List String :=
  (cands.filter fun c => c.1 = pid).map fun c => c.2.2

/-- `types.count(t)`. -/
def countIn (l : List String) (t : String) : ℕ := (l.filter fun x => x = t).length

/-- `max(set(types), key=types.count)`. -/
def argmaxCount (tys : List String) : String :=
  match firstOccs tys with
  | [] => ""
  | t :: rest =>
    rest.foldl (fun best t' => if countIn tys best < countIn tys t' then t' else best) t

/-- The merged score of one page: the arithmetic mean of its scores,
boosted by ×1.1 and capped at 1.0 (`min(avg*1.1, 1.0)`, written as its
`if` unfolding so that the kernel can evaluate it) exactly when more than
one distinct strategy contributed. -/
def mergedScore (scores : List ℚ) (types : List String) : ℚ :=
  let avg := scores.sum / (scores.length : ℚ)
  if 1 < (firstOccs types).length then
    (if avg * (11 / 10) ≤ 1 then avg * (11 / 10) else 1)
  else avg

/-- `_merge_candidates` (page_matcher.py:221-245). -/
def mergeCandidates (cands : List (String × ℚ × String)) :
    List (String × ℚ × String) :=
  sortDesc (fun r => r.2.1)
    ((firstOccs (cands.map Prod.fst)).map fun pid =>
      (pid, mergedScore (scoresFor cands pid) (typesFor cands pid),
        argmaxCount (typesFor cands pid)))

theorem mem_firstOccsAux {α : Type} [DecidableEq α] :
    ∀ (l seen : List α) (x : α),
      x ∈ firstOccsAux l seen ↔ x ∈ l ∧ x ∉ seen := by
  intro l
  induction l with
  | nil => intro seen x; simp [firstOccsAux]
  | cons a l' ih =>
    intro seen x
    rw [firstOccsAux]
    by_cases ha : a ∈ seen
    · rw [if_pos ha, ih]
      constructor
      · rintro ⟨hx, hs⟩
        exact ⟨List.mem_cons_of_mem a hx, hs⟩
      · rintro ⟨hx, hs⟩
        rcases List.mem_cons.mp hx with rfl | hx'
        · exact absurd ha hs
        · exact ⟨hx', hs⟩
    · rw [if_neg ha]
      constructor
      · intro hx
        rcases List.mem_cons.mp hx with rfl | hx'
        · exact ⟨List.mem_cons_self _ _, ha⟩
        · obtain ⟨h1, h2⟩ := (ih (a :: seen) x).mp hx'
          exact ⟨List.mem_cons_of_mem a h1,
            fun hs => h2 (List.mem_cons_of_mem a hs)⟩
      · rintro ⟨hx, hs⟩
        rcases List.mem_cons.mp hx with rfl | hx'
        · exact List.mem_cons_self _ _
        · by_cases hxa : x = a
          · exact hxa ▸ List.mem_cons_self _ _
          · exact List.mem_cons_of_mem a ((ih (a :: seen) x).mpr
              ⟨hx', by simp [hxa, hs]⟩)

theorem mem_firstOccs {α : Type} [DecidableEq α] (l : List α) (x : α) :
    x ∈ firstOccs l ↔ x ∈ l := by
  rw [firstOccs, mem_firstOccsAux]
  simp

theorem argmax_foldl_spec (tys : List String) :
    ∀ (rest : List String) (b : String),
      (rest.foldl (fun best t' =>
        if countIn tys best < countIn tys t' then t' else best) b = b ∨
       rest.foldl (fun best t' =>
        if countIn tys best < countIn tys t' then t' else best) b ∈ rest) ∧
      countIn tys b ≤ countIn tys (rest.foldl (fun best t' =>
        if countIn tys best < countIn tys t' then t' else best) b) ∧
      (∀ t' ∈ rest, countIn tys t' ≤ countIn tys (rest.foldl (fun best t'' =>
        if countIn tys best < countIn tys t'' then t'' else best) b)) := by
  intro rest
  induction rest with
  | nil => intro b; exact ⟨Or.inl rfl, le_refl _, by simp⟩
  | cons a rest' ih =>
    intro b
    rw [List.foldl_cons]
    by_cases hab : countIn tys b < countIn tys a
    · rw [if_pos hab]
      obtain ⟨hmem, hble, hall⟩ := ih a
      refine ⟨?_, le_trans (le_of_lt hab) hble, ?_⟩
      · rcases hmem with h | h
        · exact Or.inr (by rw [h]; exact List.mem_cons_self _ _)
        · exact Or.inr (List.mem_cons_of_mem _ h)
      · intro t' ht'
        rcases List.mem_cons.mp ht' with rfl | ht''
        · exact hble
        · exact hall t' ht''
    · rw [if_neg hab]
      obtain ⟨hmem, hble, hall⟩ := ih b
      refine ⟨?_, hble, ?_⟩
      · rcases hmem with h | h
        · exact Or.inl h
        · exact Or.inr (List.mem_cons_of_mem _ h)
      · intro t' ht'
        rcases List.mem_cons.mp ht' with rfl | ht''
        · exact le_trans (le_of_not_lt hab) hble
        · exact hall t' ht''

theorem argmaxCount_mem (tys : List String) (h : tys ≠ []) :
    argmaxCount tys ∈ tys := by
  rw [argmaxCount]
  cases hf : firstOccs tys with
  | nil =>
    exfalso
    rcases tys with _ | ⟨t, ts⟩
    · exact h rfl
    · have : t ∈ firstOccs (t :: ts) := (mem_firstOccs _ _).mpr
        (List.mem_cons_self _ _)
      rw [hf] at this
      exact List.not_mem_nil t this
  | cons t rest =>
    show rest.foldl (fun best t' =>
      if countIn tys best < countIn tys t' then t' else best) t ∈ tys
    obtain ⟨hmem, _, _⟩ := argmax_foldl_spec tys rest t
    have hin : t ∈ firstOccs tys := hf ▸ List.mem_cons_self _ _
    rcases hmem with h' | h'
    · rw [h']
      exact (mem_firstOccs _ _).mp hin
    · have hmem2 : rest.foldl (fun best t' =>
          if countIn tys best < countIn tys t' then t' else best) t ∈
          firstOccs tys := hf ▸ List.mem_cons_of_mem t h'
      exact (mem_firstOccs _ _).mp hmem2

theorem argmaxCount_max (tys : List String) :
    ∀ t' ∈ tys, countIn tys t' ≤ countIn tys (argmaxCount tys) := by
  intro t' ht'
  rw [argmaxCount]
  cases hf : firstOccs tys with
  | nil =>
    exfalso
    have : t' ∈ firstOccs tys := (mem_firstOccs _ _).mpr ht'
    rw [hf] at this
    exact List.not_mem_nil t' this
  | cons t rest =>
    show countIn tys t' ≤ countIn tys (rest.foldl (fun best t'' =>
      if countIn tys best < countIn tys t'' then t'' else best) t)
    obtain ⟨_, hble, hall⟩ := argmax_foldl_spec tys rest t
    have hmemf : t' ∈ firstOccs tys := (mem_firstOccs _ _).mpr ht'
    rw [hf] at hmemf
    rcases List.mem_cons.mp hmemf with rfl | h'
    · exact hble
    · exact hall t' h'

theorem typesFor_ne_nil (cands : List (String × ℚ × String)) (pid : String)
    (h : pid ∈ cands.map Prod.fst) : typesFor cands pid ≠ [] := by
  rcases List.mem_map.mp h with ⟨c, hc, rfl⟩
  intro hnil
  have hcf : c ∈ cands.filter fun c' => c'.1 = c.1 :=
    List.mem_filter.mpr ⟨hc, by simp⟩
  have : c.2.2 ∈ typesFor cands c.1 :=
    List.mem_map.mpr ⟨c, hcf, rfl⟩
  rw [hnil] at this
  exact List.not_mem_nil _ this

/-- C6: `_merge_candidates` groups candidate scores by page id (one merged
entry per distinct page id); each page's merged score is the arithmetic
mean of its scores, boosted ×1.1 and capped at 1.0 exactly when more than
one distinct strategy contributed; the dominant strategy label attains the
maximal contribution count among that page's contributing strategies; and
the result is sorted by merged score descending. -/
theorem C6_merge_candidates (cands : List (String × ℚ × String)) :
    ((mergeCandidates cands).Sorted fun a b => b.2.1 ≤ a.2.1) ∧
    (((mergeCandidates cands).map Prod.fst).Perm
      (firstOccs (cands.map Prod.fst))) ∧
    (∀ pid sc ty, (pid, sc, ty) ∈ mergeCandidates cands →
      sc = (if 1 < (firstOccs (typesFor cands pid)).length then
              min ((scoresFor cands pid).sum /
                ((scoresFor cands pid).length : ℚ) * (11 / 10)) 1
            else (scoresFor cands pid).sum /
              ((scoresFor cands pid).length : ℚ)) ∧
      ty ∈ typesFor cands pid ∧
      ∀ t' ∈ typesFor cands pid,
        countIn (typesFor cands pid) t' ≤ countIn (typesFor cands pid) ty) := by
  refine ⟨?_, ?_, ?_⟩
  · have hs1 : List.Sorted (fun (a b : String × ℚ × String) => b.2.1 ≤ a.2.1)
        (sortDesc (fun r => r.2.1)
          ((firstOccs (cands.map Prod.fst)).map fun pid =>
            (pid, mergedScore (scoresFor cands pid) (typesFor cands pid),
              argmaxCount (typesFor cands pid)))) :=
      sortDesc_sorted _ _
    exact hs1
  · have hperm := sortDesc_perm (fun (r : String × ℚ × String) => r.2.1)
      ((firstOccs (cands.map Prod.fst)).map fun pid =>
        (pid, mergedScore (scoresFor cands pid) (typesFor cands pid),
          argmaxCount (typesFor cands pid)))
    refine (hperm.map Prod.fst).trans ?_
    rw [List.map_map]
    rw [show (Prod.fst ∘ fun pid =>
      (pid, mergedScore (scoresFor cands pid) (typesFor cands pid),
        argmaxCount (typesFor cands pid))) = id from rfl]
    rw [List.map_id]
  · intro pid sc ty hmem
    have hperm := sortDesc_perm (fun (r : String × ℚ × String) => r.2.1)
      ((firstOccs (cands.map Prod.fst)).map fun pid =>
        (pid, mergedScore (scoresFor cands pid) (typesFor cands pid),
          argmaxCount (typesFor cands pid)))
    have hmem' : (pid, sc, ty) ∈ (firstOccs (cands.map Prod.fst)).map fun pid =>
        (pid, mergedScore (scoresFor cands pid) (typesFor cands pid),
          argmaxCount (typesFor cands pid)) :=
      hperm.mem_iff.mp hmem
    rcases List.mem_map.mp hmem' with ⟨pid', hpid', heq⟩
    have hpid : pid' = pid := congrArg Prod.fst heq
    subst hpid
    have hsc : sc = mergedScore (scoresFor cands pid') (typesFor cands pid') :=
      (congrArg (fun p => p.2.1) heq).symm
    have hty : ty = argmaxCount (typesFor cands pid') :=
      (congrArg (fun p => p.2.2) heq).symm
    have htne : typesFor cands pid' ≠ [] :=
      typesFor_ne_nil cands pid' ((mem_firstOccs _ _).mp hpid')
    refine ⟨by rw [hsc, mergedScore, min_def], ?_, ?_⟩
    · rw [hty]
      exact argmaxCount_mem _ htne
    · intro t' ht'
      rw [hty]
      exact argmaxCount_max _ t' ht'

/-- Candidate list used by the C6 witness: page "A" receives 1.0 from the
structural strategy and 0.5 from the visual strategy, page "B" receives
0.75 from the title strategy. -/
def candsC6 : List (String × ℚ × String) :=
  [("A", 1, "structural"), ("A", 1 / 2, "visual"), ("B", 3 / 4, "title")]

theorem candsC6_scoreA : mergedScore (scoresFor candsC6 "A")
    (typesFor candsC6 "A") = 33 / 40 := by
  rw [show scoresFor candsC6 "A" = [1, 1 / 2] from rfl,
    show typesFor candsC6 "A" = ["structural", "visual"] from rfl,
    mergedScore,
    show firstOccs ["structural", "visual"] = ["structural", "visual"] from rfl]
  rw [if_pos (by norm_num : 1 < (["structural", "visual"]).length)]
  rw [if_pos (show ([1, (1 : ℚ) / 2].sum / (([1, (1 : ℚ) / 2].length : ℕ) : ℚ))
      * (11 / 10) ≤ 1 by norm_num)]
  norm_num

theorem candsC6_scoreB : mergedScore (scoresFor candsC6 "B")
    (typesFor candsC6 "B") = 3 / 4 := by
  rw [show scoresFor candsC6 "B" = [3 / 4] from rfl,
    show typesFor candsC6 "B" = ["title"] from rfl, mergedScore]
  rw [if_neg (by decide : ¬ 1 < (firstOccs ["title"]).length)]
  norm_num

theorem candsC6_merged : mergeCandidates candsC6 =
    [("A", 33 / 40, "structural"), ("B", 3 / 4, "title")] := by
  rw [mergeCandidates,
    show firstOccs (candsC6.map Prod.fst) = ["A", "B"] from rfl,
    List.map_cons, List.map_cons, List.map_nil]
  rw [candsC6_scoreA, candsC6_scoreB,
    show argmaxCount (typesFor candsC6 "A") = "structural" from rfl,
    show argmaxCount (typesFor candsC6 "B") = "title" from rfl]
  exact sortDesc_pair_of_le (fun r : String × ℚ × String => r.2.1)
    ("A", 33 / 40, "structural") ("B", 3 / 4, "title") (by norm_num)

/-- Witness for C6: page "A"'s merged score is min(0.75 × 1.1, 1) = 0.825
with dominant strategy "structural", and the merged list is sorted with
"A" first. -/
theorem C6_merge_candidates_witness :
    ((33 : ℚ) / 40) = (if 1 < (firstOccs (typesFor candsC6 "A")).length then
        min ((scoresFor candsC6 "A").sum /
          ((scoresFor candsC6 "A").length : ℚ) * (11 / 10)) 1
      else (scoresFor candsC6 "A").sum /
        ((scoresFor candsC6 "A").length : ℚ)) ∧
    "structural" ∈ typesFor candsC6 "A" :=
  let h := (C6_merge_candidates candsC6).2.2 "A" (33 / 40) "structural"
    (by rw [candsC6_merged]; exact List.mem_cons_self _ _)
  ⟨h.1, h.2.1⟩

/-! ## `PathFinder` (path_finder.py:58-275)

The embedding function is an injected capability (`String → List ℝ`).  The
`intents` collection's metadata dict exposes `target_page_id`
(`metadata.get` returns `None` for a missing key); Python truthiness of the
target (`None` and `""` are falsy) is `strOptTruthy`.  md5/timestamp
identifier generation (`Intent.generate_id`, `ActionPath.generate_id`) is
not observed by any studied operation and is modelled as `""`. -/

/-- Metadata stored with an intent vector. -/
structure IntentMeta where
  target_page_id : Option String
  deriving DecidableEq

/-- Python truthiness of `metadata.get("target_page_id")`. -/
def strOptTruthy : Option String → Bool
  | none => false
  | some s => !(s == "")

/-- `ActionStep` (schema.py:235-254) plus the attributes set dynamically by
`_build_action_path` (path_finder.py:256-260).  `widget_xpath` and
`confidence` read keys absent from the edge dictionary, so they always take
their defaults `""` and `0.9`. -/
structure ActionStep where
  step_index : ℕ
  action_type : String
  target_widget_id : String
  target_widget_text : String
  input_text : String
  expected_page_id : String
  description : String
  widget_xpath : String
  expected_page_name : String
  confidence : ℝ
  success_rate : ℚ

/-- `ActionPath` (schema.py:292-336); execution statistics fields are not
touched by `PathFinder` and are elided.  `reason` is the attribute set
dynamically on alternatives (path_finder.py:162). -/
structure ActionPath where
  path_id : String
  intent_id : String
  app_id : String
  steps : List ActionStep
  start_page_id : String
  end_page_id : String
  confidence : ℝ
  reason : String

/-- `ActionPath.total_steps` (schema.py:313-315). -/
def ActionPath.total_steps (p : ActionPath) : ℕ := p.steps.length

/-- `QueryResult` (path_finder.py:19-55). -/
structure QueryResult where
  success : Bool
  path : Option ActionPath
  alternatives : List ActionPath
  message : String
  confidence : ℝ

/-- `PathFinder.__init__` (path_finder.py:65-73). -/
structure PathFinder where
  graph : MemoryGraphStore
  intentsVS : MemoryVectorStore IntentMeta
  pagesVS : MemoryVectorStore Unit
  embedder : String → List ℝ

/-- One step of `_build_action_path` (path_finder.py:244-262). -/
noncomputable def buildStep (g : MemoryGraphStore) (pages : List String) (i : ℕ)
    (trans : EdgeData) : ActionStep :=
  let expected_page_id := pages.getD (i + 1) ""
  let expected_page :=
    if expected_page_id = "" then none else g.get_page expected_page_id
  { step_index := i + 1
    action_type := trans.action_type
    target_widget_id := trans.trigger_widget_id
    target_widget_text := trans.trigger_widget_text
    input_text := ""
    expected_page_id := expected_page_id
    -- `trans.get("action_type", "click")` / `trans.get("trigger_widget_text",
    -- "控件")`: both keys are always present in the edge dict, so the
    -- defaults never apply.
    description := trans.action_type ++ " " ++ trans.trigger_widget_text
    widget_xpath := ""
    expected_page_name :=
      match expected_page with
      | some p => p.page_name
      | none => ""
    confidence := (9 : ℝ) / 10
    success_rate := trans.success_rate }

/-- `_build_action_path` (path_finder.py:239-274). -/
noncomputable def build_action_path (g : MemoryGraphStore) (pr : PathResult) : ActionPath :=
  { path_id := ""
    intent_id := ""
    app_id := ""
    steps := pr.transitions.enum.map fun p => buildStep g pr.pages p.1 p.2
    start_page_id := pr.pages.headI
    end_page_id := pr.pages.getLastD ""
    confidence := 0
    reason := "" }

namespace PathFinder

/-- `find_path_by_intent` (path_finder.py:75-175).  `current_page_id` is
falsy (`None`/`""`) exactly when empty here; message strings are kept as
constants with the interpolated parts elided. -/
noncomputable def find_path_by_intent (pf : PathFinder) (app_id intent : String)
    (current_page_id : String) (max_steps : ℤ) : QueryResult :=
  let intent_vec := pf.embedder intent
  let similar_intents := pf.intentsVS.search intent_vec 3
  let current? : Option String :=
    if current_page_id = "" then
      match pf.graph.find_page_by_name "首页" (some app_id) with
      | some hp => some hp.page_id
      | none => none
    else some current_page_id
  match current? with
  | none => ⟨false, none, [], "无法确定起始页面", 0⟩
  | some current =>
    let tc₀ : Option String × ℝ :=
      match similar_intents with
      | [] => (none, 0)
      | best :: _ => (best.metadata.target_page_id, best.score)
    let tc₁ : Option String × ℝ :=
      if strOptTruthy tc₀.1 then tc₀
      else
        match pf.pagesVS.search intent_vec 3 with
        | [] => tc₀
        | r :: _ => (some r.id, r.score)
    if strOptTruthy tc₁.1 then
      let target := tc₁.1.getD ""
      match pf.graph.find_shortest_path current target with
      | none => ⟨false, none, [], "从当前页面到目标页面不可达", 0⟩
      | some pr =>
        let action_path :=
          { build_action_path pf.graph pr with confidence := tc₁.2 }
        let all_paths := pf.graph.find_all_paths current target max_steps
        let alternatives := ((all_paths.drop 1).take 2).map fun pr' =>
          { build_action_path pf.graph pr' with
            confidence := tc₁.2 * (8 / 10)
            reason := if pr'.total_steps < pr.total_steps then
                "路径更短但成功率较低" else "备选路径" }
        ⟨true, some action_path, alternatives, "找到路径", tc₁.2⟩
    else ⟨false, none, [], "未找到匹配的目标页面", 0⟩

/-- The dictionary returned by `get_next_action` (path_finder.py:216-224). -/
structure NextAction where
  action : String
  widget_id : String
  widget_text : String
  description : String
  expected_page : String
  remaining_steps : ℕ

/-- `get_next_action` (path_finder.py:199-225): resolve the full path with
the default `max_steps = 10` and `app_id = ""`, then return only the first
step with `remaining_steps = total_steps - 1`; `None` otherwise. -/
noncomputable def get_next_action (pf : PathFinder)
    (current_page_id target_intent : String) : Option NextAction :=
  let result := pf.find_path_by_intent "" target_intent current_page_id 10
  match result.success, result.path with
  | true, some p =>
    match p.steps with
    | [] => none
    | first :: _ =>
      some ⟨first.action_type, first.target_widget_id,
        first.target_widget_text, first.description, first.expected_page_id,
        p.total_steps - 1⟩
  | _, _ => none

end PathFinder

/-- C5 (amended): whenever the underlying resolution succeeds with a path
of at least one step, `get_next_action` returns exactly the first
`ActionStep`'s data with `remaining_steps = total_steps - 1`; when the
resolution succeeds with a zero-step path (the current page is already the
target), it returns `None` — the same value as every failure — rather than
a completion report carrying `remaining_steps = 0` (see the
counterexample; the façade layer, out of scope here, interprets `None` as
completion). -/
theorem C5_get_next_action (pf : PathFinder) (cur intent : String) :
    (∀ p first rest,
      (pf.find_path_by_intent "" intent cur 10).success = true →
      (pf.find_path_by_intent "" intent cur 10).path = some p →
      p.steps = first :: rest →
      pf.get_next_action cur intent = some ⟨first.action_type,
        first.target_widget_id, first.target_widget_text, first.description,
        first.expected_page_id, p.total_steps - 1⟩) ∧
    (∀ p,
      (pf.find_path_by_intent "" intent cur 10).success = true →
      (pf.find_path_by_intent "" intent cur 10).path = some p →
      p.steps = [] →
      pf.get_next_action cur intent = none) := by
  constructor
  · intro p first rest hs hp hsteps
    rw [PathFinder.get_next_action]
    simp only [hs, hp, hsteps]
  · intro p hs hp hsteps
    rw [PathFinder.get_next_action]
    simp only [hs, hp, hsteps]

theorem dot_single_zero : dot [(0 : ℝ)] [0] = 0 := by
  rw [dot_cons_cons, dot_nil_left]
  ring

theorem normalize_single_zero : normalize [(0 : ℝ)] = [0] :=
  normalize_eq_self_of_dot_zero _ dot_single_zero

/-- State for the C5 counterexample: one page "A", one intent targeting
"A", zero-vector embeddings. -/
noncomputable def pfC5 : PathFinder :=
  { graph := MemoryGraphStore.init.add_page (samplePage "A")
    intentsVS := MemoryVectorStore.insert ⟨2, []⟩ "i1" [0] ⟨some "A"⟩
    pagesVS := ⟨2, []⟩
    embedder := fun _ => [0] }

theorem pfC5_search : pfC5.intentsVS.search [(0 : ℝ)] 3 =
    [⟨"i1", 0, ⟨some "A"⟩⟩] := by
  have hent : pfC5.intentsVS.entries = [⟨"i1", [(0 : ℝ)], ⟨some "A"⟩⟩] := by
    rw [show pfC5.intentsVS.entries =
      [⟨"i1", normalize [(0 : ℝ)], ⟨some "A"⟩⟩] from rfl, normalize_single_zero]
  rw [MemoryVectorStore.search, if_neg (by rw [hent]; simp)]
  rw [normalize_single_zero, scoresOf, hent, List.map_cons, List.map_nil,
    dot_single_zero]
  rw [sortDesc_singleton]
  rfl

theorem pfC5_fpbi : pfC5.find_path_by_intent "" "go" "A" 10 =
    ⟨true, some ⟨"", "", "", [], "A", "A", 0, ""⟩, [], "找到路径", 0⟩ := by
  rw [PathFinder.find_path_by_intent,
    show pfC5.embedder "go" = [(0 : ℝ)] from rfl, pfC5_search]
  rfl

/-- Counterexample to C5 as stated: on `pfC5`, resolving intent "go" from
page "A" succeeds with a zero-step path, yet `get_next_action` returns
`None` — no action, but also no `remaining_steps = 0` completion report. -/
theorem C5_get_next_action_counterexample :
    (pfC5.find_path_by_intent "" "go" "A" 10).success = true ∧
    ((pfC5.find_path_by_intent "" "go" "A" 10).path.map
      ActionPath.total_steps) = some 0 ∧
    pfC5.get_next_action "A" "go" = none := by
  refine ⟨?_, ?_, ?_⟩
  · rw [pfC5_fpbi]
  · rw [pfC5_fpbi]
    rfl
  · rw [PathFinder.get_next_action, pfC5_fpbi]

/-- State for the C5 witness: pages "A" → "B" with one click transition,
one intent targeting "B". -/
noncomputable def pfC5w : PathFinder :=
  { graph := ((MemoryGraphStore.init.add_page (samplePage "A")).add_page
      (samplePage "B")).add_transition (sampleTransition "t" "A" "B")
    intentsVS := MemoryVectorStore.insert ⟨2, []⟩ "i1" [0] ⟨some "B"⟩
    pagesVS := ⟨2, []⟩
    embedder := fun _ => [0] }

/-- The single step of the resolved path in `pfC5w`. -/
noncomputable def stepW : ActionStep :=
  ⟨1, "click", "", "", "", "B", "click ", "", "B", (9 : ℝ) / 10, 0⟩

/-- The resolved path in `pfC5w`. -/
noncomputable def pathW : ActionPath := ⟨"", "", "", [stepW], "A", "B", 0, ""⟩

theorem pfC5w_search : pfC5w.intentsVS.search [(0 : ℝ)] 3 =
    [⟨"i1", 0, ⟨some "B"⟩⟩] := by
  have hent : pfC5w.intentsVS.entries = [⟨"i1", [(0 : ℝ)], ⟨some "B"⟩⟩] := by
    rw [show pfC5w.intentsVS.entries =
      [⟨"i1", normalize [(0 : ℝ)], ⟨some "B"⟩⟩] from rfl, normalize_single_zero]
  rw [MemoryVectorStore.search, if_neg (by rw [hent]; simp)]
  rw [normalize_single_zero, scoresOf, hent, List.map_cons, List.map_nil,
    dot_single_zero]
  rw [sortDesc_singleton]
  rfl

theorem pfC5w_fpbi : pfC5w.find_path_by_intent "" "go" "A" 10 =
    ⟨true, some pathW, [], "找到路径", 0⟩ := by
  rw [PathFinder.find_path_by_intent,
    show pfC5w.embedder "go" = [(0 : ℝ)] from rfl, pfC5w_search]
  rfl

/-- Witness for the amended C5: on `pfC5w` the next action is the single
step of the resolved path with `remaining_steps = 0`. -/
theorem C5_get_next_action_witness :
    pfC5w.get_next_action "A" "go" = some ⟨stepW.action_type,
      stepW.target_widget_id, stepW.target_widget_text, stepW.description,
      stepW.expected_page_id, pathW.total_steps - 1⟩ :=
  (C5_get_next_action pfC5w "A" "go").1 pathW stepW []
    (by rw [pfC5w_fpbi]) (by rw [pfC5w_fpbi]) rfl

end KG
